import Mathlib

/-!
Verification of the Kadaster query-catalog harvesting pipeline
(`src/kadaster.py`): a shallow embedding of the SPARQL extractor,
normalizer, execution client, artifact writer and crawl orchestrator,
with theorems settling the specification's claims about them.
Strings are modelled as `List Char`.
-/

namespace Kadaster

/-- The whitespace characters of Python's `str.strip` / `str.isspace` /
regex `\s` (CPython's `Py_UNICODE_ISSPACE` set). -/
def isPySpace (c : Char) : Bool :=
  c.toNat ∈ [9, 10, 11, 12, 13, 28, 29, 30, 31, 32, 133, 160,
    0x1680, 0x2000, 0x2001, 0x2002, 0x2003, 0x2004, 0x2005, 0x2006, 0x2007,
    0x2008, 0x2009, 0x200a, 0x2028, 0x2029, 0x202f, 0x205f, 0x3000]

/-- Python `s.lstrip()`. -/
def lstripWs (s : List Char) : List Char := s.dropWhile isPySpace

/-- Python `s.rstrip()`: remove trailing whitespace. -/
def rstripWs : List Char → List Char
  | [] => []
  | c :: rest =>
    let r := rstripWs rest
    if r = [] ∧ isPySpace c then [] else c :: r

/-- Python `s.strip()`. -/
def stripWs (s : List Char) : List Char := rstripWs (lstripWs s)

/-- Python `s.lstrip("﻿")`: drop leading byte-order marks. -/
def lstripBom (s : List Char) : List Char := s.dropWhile (fun c => c = '\uFEFF')

/-- Python `s.split("\n")`. -/
def splitNl : List Char → List (List Char)
  | [] => [[]]
  | c :: rest =>
    if c = '\n' then [] :: splitNl rest
    else
      match splitNl rest with
      | [] => [[c]]
      | l :: ls => (c :: l) :: ls

/-- Python `"\n".join(lines)`. -/
def joinNl : List (List Char) → List Char
  | [] => []
  | [l] => l
  | l :: ls => l ++ '\n' :: joinNl ls

/-- Length of the leading run of dashes of a line. -/
def dashRun (l : List Char) : Nat := (l.takeWhile (fun c => c = '-')).length

/-- Python `re.match(r"^-{3,}\^.*$", line)`: three or more dashes followed
by a caret. -/
def isDashCaret (l : List Char) : Bool :=
  3 ≤ dashRun l ∧ (l.drop (dashRun l)).head? = some '^'

/-- Python `re.match(r"^-{3,}\s*$", line)`: three or more dashes followed
only by whitespace. -/
def isDashOnly (l : List Char) : Bool :=
  3 ≤ dashRun l ∧ (l.drop (dashRun l)).all isPySpace

/-- A line survives the per-line cleanup of `clean_sparql_query`. -/
def keepLine (l : List Char) : Bool := ¬ isDashCaret l ∧ ¬ isDashOnly l

/-- The per-line pass of `clean_sparql_query`: rstrip each line, drop
caret-marker and dash-only lines. -/
def processLines (ls : List (List Char)) : List (List Char) :=
  (ls.map rstripWs).filter keepLine

/-- A pending run of `n` newlines, as emitted by `re.sub(r"\n{4,}", "\n\n\n", s)`:
runs of four or more collapse to three. -/
def emitNl (n : Nat) : List Char := List.replicate (if 4 ≤ n then 3 else n) '\n'

/-- Helper for `collapseNl`: `n` counts the newline run read so far. -/
def collapseAux : Nat → List Char → List Char
  | n, [] => emitNl n
  | n, c :: rest =>
    if c = '\n' then collapseAux (n + 1) rest
    else emitNl n ++ c :: collapseAux 0 rest

/-- Python `re.sub(r"\n{4,}", "\n\n\n", s)`: collapse each run of four or
more newline characters to exactly three. -/
def collapseNl (s : List Char) : List Char := collapseAux 0 s

/-- Helper for `replaceSeq`: the `Nat` is how many characters of an
already-matched occurrence remain to be skipped. -/
def replaceAux (p0 : Char) (ptail rep : List Char) : Nat → List Char → List Char
  | _, [] => []
  | k + 1, _ :: rest => replaceAux p0 ptail rep k rest
  | 0, c :: rest =>
    if c = p0 ∧ ptail.isPrefixOf rest then rep ++ replaceAux p0 ptail rep ptail.length rest
    else c :: replaceAux p0 ptail rep 0 rest

/-- Python `s.replace(pat, rep)` for the pattern `p0 :: ptail`: leftmost,
non-overlapping replacement. -/
def replaceSeq (p0 : Char) (ptail rep : List Char) (s : List Char) : List Char :=
  replaceAux p0 ptail rep 0 s

/-- Python `pat in s` for the two-character pattern `[p0, p1]`. -/
def containsSeq2 (p0 p1 : Char) : List Char → Bool
  | [] => false
  | c :: rest =>
    match rest with
    | [] => false
    | d :: _ => (c = p0 ∧ d = p1) ∨ containsSeq2 p0 p1 rest

/-- Python `s.replace(a, b)` for single characters. -/
def mapChar (a b : Char) (s : List Char) : List Char :=
  s.map (fun c => if c = a then b else c)

/-- Python `s.replace(a, "")` for a single character. -/
def removeChar (a : Char) (s : List Char) : List Char :=
  s.filter (fun c => ¬ c = a)

/-- The single-quote character. -/
def squote : Char := Char.ofNat 39

/-- The double-quote character. -/
def dquote : Char := Char.ofNat 34

/-- The quote-unwrapping step of `clean_sparql_query`: if the string is
wrapped in a matching pair of quote characters and the inside is non-blank,
keep the stripped inside. -/
def unwrapQuotes (s : List Char) : List Char :=
  if 2 ≤ s.length ∧ s.head? = s.getLast? ∧ (s.head? = some squote ∨ s.head? = some dquote) then
    let inner := stripWs ((s.drop 1).dropLast)
    if inner = [] then s else inner
  else s

/-- The escaped-newline/escaped-tab conversion step of `clean_sparql_query`. -/
def convertEscapes (s : List Char) : List Char :=
  let a := if containsSeq2 '\\' 'n' s then
      replaceSeq '\\' ['n'] ['\n'] (replaceSeq '\\' ['r', '\\', 'n'] ['\n'] s)
    else s
  if containsSeq2 '\\' 't' a then replaceSeq '\\' ['t'] [' '] a else a

/-- The line-ending normalization and invisible-character removal step of
`clean_sparql_query`. -/
def normalizeInvisibles (s : List Char) : List Char :=
  removeChar '\u200D' (removeChar '\u200C' (removeChar '\u200B'
    (mapChar '\u00A0' ' ' (mapChar '\r' '\n' (replaceSeq '\r' ['\n'] ['\n'] s)))))

/-- `clean_sparql_query` from `src/kadaster.py`, on a string input: strip and
drop a BOM, unwrap a quote pair, convert literal escapes, normalize line
endings and invisible characters, rstrip lines and drop dash-marker lines,
collapse long blank runs, and report an empty result as absence. -/
def clean_sparql_query (q : List Char) : Option (List Char) :=
  let c1 := lstripBom (stripWs q)
  let c2 := unwrapQuotes c1
  let c3 := convertEscapes c2
  let c4 := normalizeInvisibles c3
  let c5 := joinNl (processLines (splitNl c4))
  let c6 := stripWs (collapseNl c5)
  if c6 = [] then none else some c6

/-- `clean_sparql_query` on a possibly-absent input (`None` in Python maps
to `none`). -/
def cleanOpt (q : Option (List Char)) : Option (List Char) :=
  match q with
  | none => none
  | some s => clean_sparql_query s

/-! ## JSON values and the SPARQL extractor (`extract_sparql_query`) -/

/-- A JSON value, as the detail records and execution responses are shaped. -/
inductive JVal where
  | jstr (s : List Char)
  | jnum (n : Nat)
  | jbool (b : Bool)
  | jnull
  | jarr (elems : List JVal)
  | jobj (fields : List (List Char × JVal))

/-- Python `d.get(k)` on a dict: the first binding of the key, if any. -/
def getKey (fields : List (List Char × JVal)) (k : List Char) : Option JVal :=
  match fields with
  | [] => none
  | (k', v) :: rest => if k' = k then some v else getKey rest k

/-- `d.get(k)` when the value is an object, `none` otherwise
(models `isinstance(..., dict)` guards). -/
def objGet (v : JVal) (k : List Char) : Option JVal :=
  match v with
  | JVal.jobj fields => getKey fields k
  | _ => none

/-- Python truthiness of a JSON value (`if not details`). -/
def jTruthy (v : JVal) : Bool :=
  match v with
  | JVal.jstr s => ¬ s.isEmpty
  | JVal.jnum n => ¬ n = 0
  | JVal.jbool b => b
  | JVal.jnull => false
  | JVal.jarr es => ¬ es.isEmpty
  | JVal.jobj fs => ¬ fs.isEmpty

def kQuery : List Char := ("query").toList
def kSparql : List Char := ("sparql").toList
def kQ : List Char := ("q").toList
def kPayload : List Char := ("payload").toList
def kRequestConfig : List Char := ("requestConfig").toList

/-- `isinstance(value, str) and value.strip()`: the value if it is a string
that is non-empty after trimming. -/
def goodStr (v : Option JVal) : Option (List Char) :=
  match v with
  | some (JVal.jstr s) => if stripWs s = [] then none else some s
  | _ => none

/-- `extract_sparql_query` from `src/kadaster.py`: probe
`requestConfig.payload.{query,sparql,q}`, then `requestConfig.payload`
itself when it is a string, then top-level `query`/`sparql`, then
`payload.query`; return the first string that is non-empty after trimming
(the value itself, untrimmed). -/
def extract_sparql_query (details : JVal) : Option (List Char) :=
  match details with
  | JVal.jobj fields =>
    let fromRC : Option (List Char) :=
      match getKey fields kRequestConfig with
      | some (JVal.jobj rcf) =>
        match getKey rcf kPayload with
        | some (JVal.jobj pf) =>
          ((goodStr (getKey pf kQuery)).orElse fun _ =>
            (goodStr (getKey pf kSparql)).orElse fun _ =>
              goodStr (getKey pf kQ))
        | some (JVal.jstr p) => if stripWs p = [] then none else some p
        | _ => none
      | _ => none
    (fromRC.orElse fun _ =>
      (goodStr (getKey fields kQuery)).orElse fun _ =>
        (goodStr (getKey fields kSparql)).orElse fun _ =>
          goodStr ((getKey fields kPayload).bind (fun p => objGet p kQuery)))
  | _ => none

/-- First candidate value that is a string non-empty after trimming
(the specification's priority search). -/
def firstGoodStr : List (Option JVal) → Option (List Char)
  | [] => none
  | v :: rest =>
    match goodStr v with
    | some s => some s
    | none => firstGoodStr rest

/-- The extractor as the specification words it: a fixed ordered list of
candidate locations, returning the first whose value is a non-empty-after-
trimming string. -/
def extractSpec (details : JVal) : Option (List Char) :=
  let rcPayload := (objGet details kRequestConfig).bind (fun rc => objGet rc kPayload)
  firstGoodStr
    [ rcPayload.bind (fun p => objGet p kQuery),
      rcPayload.bind (fun p => objGet p kSparql),
      rcPayload.bind (fun p => objGet p kQ),
      rcPayload,
      objGet details kQuery,
      objGet details kSparql,
      (objGet details kPayload).bind (fun p => objGet p kQuery) ]

/-! ## URL percent-encoding (`urllib.parse.quote`, C9) -/

/-- `urllib.parse.quote`'s non-encoded set: ASCII alphanumerics, `_.-~`,
plus the default `safe="/"`. -/
def isQuoteSafe (c : Char) : Bool :=
  (('A' ≤ c ∧ c ≤ 'Z') ∨ ('a' ≤ c ∧ c ≤ 'z') ∨ ('0' ≤ c ∧ c ≤ '9')) ∨
    c ∈ ['_', '.', '-', '~', '/']

/-- Upper-case hex digit of a value below 16. -/
def hexDigitChar (n : Nat) : Char :=
  if n < 10 then Char.ofNat (48 + n) else Char.ofNat (55 + n)

/-- `%XX` percent-escape of one byte. -/
def percentByte (b : Nat) : List Char := ['%', hexDigitChar (b / 16), hexDigitChar (b % 16)]

/-- The UTF-8 bytes of one character. -/
def utf8Bytes (c : Char) : List Nat :=
  let n := c.toNat
  if n < 0x80 then [n]
  else if n < 0x800 then [0xC0 + n / 64, 0x80 + n % 64]
  else if n < 0x10000 then [0xE0 + n / 4096, 0x80 + (n / 64) % 64, 0x80 + n % 64]
  else [0xF0 + n / 262144, 0x80 + (n / 4096) % 64, 0x80 + (n / 64) % 64, 0x80 + n % 64]

/-- `urllib.parse.quote(name)` as `fetch_query_details` calls it: safe
characters pass through, every other character's UTF-8 bytes are
percent-escaped. -/
def pyQuote (s : List Char) : List Char :=
  (s.map (fun c => if isQuoteSafe c then [c] else ((utf8Bytes c).map percentByte).flatten)).flatten

/-! ## The execution client (`execute_sparql`) -/

def kError : List Char := ("error").toList
def kStatusCode : List Char := ("status_code").toList
def kContentType : List Char := ("content_type").toList
def kTextSample : List Char := ("text_sample").toList
def kInfo : List Char := ("info").toList
def msgNoQuery : List Char := ("No SPARQL query provided for execution").toList
def msgNonJson : List Char := ("Non-JSON response from SPARQL endpoint").toList
def msgSkipped : List Char := ("Skipped execution: No SPARQL code found in query details").toList

/-- `f"Execution failed: {str(e)}"`. -/
def execFailedMsg (e : List Char) : List Char := ("Execution failed: ").toList ++ e

/-- An HTTP response as `execute_sparql` observes it: status, content-type
header, the JSON parse of the body when it parses, the raw text, and the
text of the `HTTPError` that `raise_for_status` raises for a 4xx/5xx status
(the exact wording of that library message is abstracted as a field). -/
structure HttpResponse where
  status : Nat
  contentType : Option (List Char)
  jsonBody : Option JVal
  text : List Char
  errMsg : List Char

/-- Outcome of `session.post`: a transport-level `RequestException`, or a
response. -/
inductive PostResult where
  | failure (msg : List Char)
  | success (r : HttpResponse)

/-- `response.headers.get("content-type")` as a JSON value. -/
def ctJVal : Option (List Char) → JVal
  | none => JVal.jnull
  | some s => JVal.jstr s

/-- `execute_sparql` from `src/kadaster.py`, classifying one post outcome:
blank query → error marker without any call; transport failure or 4xx/5xx
(`raise_for_status`) → `{"error": "Execution failed: ..."}`; JSON body →
the body verbatim; otherwise the non-JSON shape with status, content-type
and the first 10000 characters of the raw text. -/
def execute_sparql (post : PostResult) (q : List Char) (_qid : Option (List Char)) : JVal :=
  if stripWs q = [] then JVal.jobj [(kError, JVal.jstr msgNoQuery)]
  else
    match post with
    | PostResult.failure m => JVal.jobj [(kError, JVal.jstr (execFailedMsg m))]
    | PostResult.success r =>
      if 400 ≤ r.status ∧ r.status < 600 then
        JVal.jobj [(kError, JVal.jstr (execFailedMsg r.errMsg))]
      else
        match r.jsonBody with
        | some j => j
        | none =>
          JVal.jobj [(kError, JVal.jstr msgNonJson),
                     (kStatusCode, JVal.jnum r.status),
                     (kContentType, ctJVal r.contentType),
                     (kTextSample, JVal.jstr (r.text.take 10000))]

/-! ## The per-item pipeline (`process_catalog_item`) and the orchestrator (`main`) -/

/-- One row of a catalog listing page. -/
structure CatalogItem where
  id : Option (List Char)
  name : Option (List Char)
  owner : Option (List Char)

/-- The persisted artifact (`training_example` in the source). -/
structure Artifact where
  meta_id : Option (List Char)
  meta_name : JVal
  meta_description : JVal
  meta_owner : JVal
  meta_visualization : JVal
  prompt_prefixes : JVal
  prompt_dataset_name : JVal
  input_natural_language : JVal
  output_sparql : Option (List Char)
  execution_result_sample : JVal

/-- Observable actions of one crawl, in order. -/
inductive Event where
  | pageFetch (n : Nat)
  | resolveCall (owner name : List Char)
  | execCall (q : List Char) (qid : Option (List Char))
  | writeFile (filename : List Char) (doc : Artifact)

/-- The remote services as oracles: catalog pager (`none` = network/parse
failure or falsy body), detail resolver (`none` = failure), and the
execution endpoint's already-classified result. -/
structure Env where
  fetchPage : Nat → Option (List CatalogItem)
  resolve : List Char → List Char → Option JVal
  execute : List Char → Option (List Char) → JVal

/-- Python truthiness of an optional string (`if not (q_name and q_owner)`). -/
def truthyOptStr : Option (List Char) → Bool
  | none => false
  | some s => ¬ s.isEmpty

/-- `f"{q_id}"`: Python renders `None` as the text `None`. -/
def idStr : Option (List Char) → List Char
  | none => ("None").toList
  | some s => s

def jsonExt : List Char := (".json").toList
def kDisplayName : List Char := ("displayName").toList
def kDescription : List Char := ("description").toList
def kOwner : List Char := ("owner").toList
def kName : List Char := ("name").toList
def kRenderConfig : List Char := ("renderConfig").toList
def kOutput : List Char := ("output").toList
def kDataset : List Char := ("dataset").toList
def kPrefixes : List Char := ("prefixes").toList
def unknownStr : List Char := ("Unknown").toList

/-- `details.get("owner", {}).get("name")`: `none` models the
`AttributeError` Python raises when `owner` is present but not a dict. -/
def ownerNameField (dfields : List (List Char × JVal)) : Option JVal :=
  match getKey dfields kOwner with
  | none => some JVal.jnull
  | some (JVal.jobj f) => some ((getKey f kName).getD JVal.jnull)
  | some _ => none

/-- `details.get("renderConfig", {}).get("output")`, with the same
`AttributeError` modelling. -/
def vizField (dfields : List (List Char × JVal)) : Option JVal :=
  match getKey dfields kRenderConfig with
  | none => some JVal.jnull
  | some (JVal.jobj f) => some ((getKey f kOutput).getD JVal.jnull)
  | some _ => none

/-- `details.get("dataset", {}).get("prefixes", []) if isinstance(...) else []`. -/
def datasetPrefixes (dfields : List (List Char × JVal)) : JVal :=
  match getKey dfields kDataset with
  | some (JVal.jobj f) => (getKey f kPrefixes).getD (JVal.jarr [])
  | _ => JVal.jarr []

/-- `details.get("dataset", {}).get("displayName") if isinstance(...) else "Unknown"`. -/
def datasetName (dfields : List (List Char × JVal)) : JVal :=
  match getKey dfields kDataset with
  | some (JVal.jobj f) => (getKey f kDisplayName).getD JVal.jnull
  | _ => JVal.jstr unknownStr

/-- The `training_example` dict of `process_catalog_item`; `none` when its
construction raises (`owner` or `renderConfig` present but not a dict). -/
def buildArtifact (dfields : List (List Char × JVal)) (qid : Option (List Char))
    (code : Option (List Char)) (execRes : JVal) : Option Artifact :=
  match ownerNameField dfields, vizField dfields with
  | some ow, some viz =>
    some { meta_id := qid
           meta_name := (getKey dfields kDisplayName).getD JVal.jnull
           meta_description := (getKey dfields kDescription).getD JVal.jnull
           meta_owner := ow
           meta_visualization := viz
           prompt_prefixes := datasetPrefixes dfields
           prompt_dataset_name := datasetName dfields
           input_natural_language := (getKey dfields kDescription).getD JVal.jnull
           output_sparql := code
           execution_result_sample := execRes }
  | _, _ => none

/-- The `{"info": "Skipped execution: ..."}` marker. -/
def skippedMarker : JVal := JVal.jobj [(kInfo, JVal.jstr msgSkipped)]

/-- `process_catalog_item` from `src/kadaster.py`: skip when name or owner
is missing/empty; resolve; on truthy details extract and clean; execute only
truthy query text, else record the skip marker; build and save the artifact
(an `AttributeError` while building the dict is caught by the orchestrator:
no write, count 0). Returns the emitted events and the count contribution. -/
def process_catalog_item (env : Env) (item : CatalogItem) : List Event × Nat :=
  if truthyOptStr item.name ∧ truthyOptStr item.owner then
    let owner := item.owner.getD []
    let name := item.name.getD []
    match env.resolve owner name with
    | none => ([Event.resolveCall owner name], 0)
    | some details =>
      if jTruthy details then
        let code := cleanOpt (extract_sparql_query details)
        let execEvs : List Event :=
          if truthyOptStr code then [Event.execCall (code.getD []) item.id] else []
        let execRes : JVal :=
          if truthyOptStr code then env.execute (code.getD []) item.id else skippedMarker
        match details with
        | JVal.jobj dfields =>
          match buildArtifact dfields item.id code execRes with
          | some doc =>
            (Event.resolveCall owner name :: execEvs ++
              [Event.writeFile (idStr item.id ++ jsonExt) doc], 1)
          | none => (Event.resolveCall owner name :: execEvs, 0)
        | _ => (Event.resolveCall owner name :: execEvs, 0)
      else ([Event.resolveCall owner name], 0)
  else ([], 0)

/-- The page loop of `main` from `src/kadaster.py`, with fuel making the
`while True` recursion total: fetch a page; a failed fetch or an empty
item list stops the crawl; otherwise process every item of the page and
move to the next page, accumulating the processed count. -/
def crawlLoop (env : Env) : Nat → Nat → List Event × Nat
  | 0, _ => ([], 0)
  | fuel + 1, page =>
    match env.fetchPage page with
    | none => ([Event.pageFetch page], 0)
    | some items =>
      if items.isEmpty then ([Event.pageFetch page], 0)
      else
        let batch := items.map (process_catalog_item env)
        let r := crawlLoop env fuel (page + 1)
        (Event.pageFetch page :: (batch.map Prod.fst).flatten ++ r.1,
         (batch.map Prod.snd).sum + r.2)

/-- `main`: the crawl starts at page 1. -/
def crawl_main (env : Env) (fuel : Nat) : List Event × Nat := crawlLoop env fuel 1

/-- The write events of a trace. -/
def writesOf (evs : List Event) : List (List Char × Artifact) :=
  evs.filterMap fun e =>
    match e with
    | Event.writeFile f d => some (f, d)
    | _ => none

/-- The page numbers fetched in a trace. -/
def pagesFetched (evs : List Event) : List Nat :=
  evs.filterMap fun e =>
    match e with
    | Event.pageFetch n => some n
    | _ => none

/-- The queries submitted for execution in a trace. -/
def execCallsOf (evs : List Event) : List (List Char) :=
  evs.filterMap fun e =>
    match e with
    | Event.execCall q _ => some q
    | _ => none

/-- The (owner, name) pairs the detail resolver was invoked on in a trace. -/
def resolveCallsOf (evs : List Event) : List (List Char × List Char) :=
  evs.filterMap fun e =>
    match e with
    | Event.resolveCall o n => some (o, n)
    | _ => none

/-! ## The artifact writer (`save_entry` / `json.dump(indent=4, ensure_ascii=False)`) -/

def lbrace : Char := Char.ofNat 123
def rbrace : Char := Char.ofNat 125

/-- Characters `json.dump` escapes inside a string when `ensure_ascii` is
off: the quote, the backslash, and control characters below 0x20. -/
def needsEscape (c : Char) : Bool := c = dquote ∨ c = '\\' ∨ c.toNat < 32

/-- Lower-case hex digit of a value below 16. -/
def hexDigitLower (n : Nat) : Char :=
  if n < 10 then Char.ofNat (48 + n) else Char.ofNat (87 + n)

/-- How `json.dump` renders one character of a string with
`ensure_ascii=False`: short escapes for the JSON specials, `\u00XX` for the
remaining control characters, every other character verbatim. -/
def escapeChar (c : Char) : List Char :=
  if c = dquote then ['\\', dquote]
  else if c = '\\' then ['\\', '\\']
  else if c = '\n' then ['\\', 'n']
  else if c = '\t' then ['\\', 't']
  else if c = '\r' then ['\\', 'r']
  else if c.toNat = 8 then ['\\', 'b']
  else if c.toNat = 12 then ['\\', 'f']
  else if c.toNat < 32 then
    ['\\', 'u', '0', '0', hexDigitLower (c.toNat / 16), hexDigitLower (c.toNat % 16)]
  else [c]

/-- A JSON string body with `ensure_ascii=False`. -/
def escapeStr (s : List Char) : List Char := (s.map escapeChar).flatten

def indentSp (n : Nat) : List Char := List.replicate n ' '

def natChars (n : Nat) : List Char := (Nat.repr n).toList

mutual

/-- `json.dump(v, indent=4, ensure_ascii=False)` at a given indent level. -/
def serializeJVal : JVal → Nat → List Char
  | JVal.jstr s, _ => dquote :: escapeStr s ++ [dquote]
  | JVal.jnum n, _ => natChars n
  | JVal.jbool b, _ => if b then ("true").toList else ("false").toList
  | JVal.jnull, _ => ("null").toList
  | JVal.jarr [], _ => ['[', ']']
  | JVal.jarr (e :: es), ind =>
    '[' :: '\n' :: serializeElems (e :: es) (ind + 4) ++ '\n' :: indentSp ind ++ [']']
  | JVal.jobj [], _ => [lbrace, rbrace]
  | JVal.jobj (f :: fs), ind =>
    lbrace :: '\n' :: serializeFields (f :: fs) (ind + 4) ++ '\n' :: indentSp ind ++ [rbrace]

/-- Array elements, comma-and-newline separated, each indented. -/
def serializeElems : List JVal → Nat → List Char
  | [], _ => []
  | [e], ind => indentSp ind ++ serializeJVal e ind
  | e :: es, ind =>
    indentSp ind ++ serializeJVal e ind ++ ',' :: '\n' :: serializeElems es ind

/-- Object fields, comma-and-newline separated, each `"key": value`. -/
def serializeFields : List (List Char × JVal) → Nat → List Char
  | [], _ => []
  | [(k, v)], ind =>
    indentSp ind ++ dquote :: escapeStr k ++ [dquote, ':', ' '] ++ serializeJVal v ind
  | (k, v) :: fs, ind =>
    indentSp ind ++ dquote :: escapeStr k ++ [dquote, ':', ' '] ++ serializeJVal v ind ++
      ',' :: '\n' :: serializeFields fs ind

end

def kMeta : List Char := ("meta").toList
def kId : List Char := ("id").toList
def kVisualization : List Char := ("visualization").toList
def kPromptContext : List Char := ("prompt_context").toList
def kDatasetName : List Char := ("dataset_name").toList
def kInputNL : List Char := ("input_natural_language").toList
def kOutputSparql : List Char := ("output_sparql").toList
def kExecSample : List Char := ("execution_result_sample").toList

/-- A possibly-absent string as a JSON value (`None` serializes as null). -/
def optStrJVal : Option (List Char) → JVal
  | none => JVal.jnull
  | some s => JVal.jstr s

/-- The artifact as the JSON document `save_entry` serializes. -/
def artifactJson (a : Artifact) : JVal :=
  JVal.jobj
    [ (kMeta, JVal.jobj
        [ (kId, optStrJVal a.meta_id),
          (kName, a.meta_name),
          (kDescription, a.meta_description),
          (kOwner, a.meta_owner),
          (kVisualization, a.meta_visualization) ]),
      (kPromptContext, JVal.jobj
        [ (kPrefixes, a.prompt_prefixes),
          (kDatasetName, a.prompt_dataset_name) ]),
      (kInputNL, a.input_natural_language),
      (kOutputSparql, optStrJVal a.output_sparql),
      (kExecSample, a.execution_result_sample) ]

/-- The bytes `save_entry` writes for one artifact. -/
def saveBytes (a : Artifact) : List Char := serializeJVal (artifactJson a) 0

/-- The output directory as a map from filename to file content: `open(f, "w")`
followed by a full write replaces the file with that id, touching no other
file and deleting nothing. -/
def upsert (st : List (List Char × List Char)) (k v : List Char) :
    List (List Char × List Char) :=
  match st with
  | [] => [(k, v)]
  | (k', v') :: rest => if k' = k then (k, v) :: rest else (k', v') :: upsert rest k v

/-- Content of the file named `k`, if present. -/
def lookupStore (st : List (List Char × List Char)) (k : List Char) :
    Option (List Char) :=
  match st with
  | [] => none
  | (k', v) :: rest => if k' = k then some v else lookupStore rest k

/-- Replay the write events of a trace against the content store. -/
def applyEvents (st : List (List Char × List Char)) : List Event →
    List (List Char × List Char)
  | [] => st
  | Event.writeFile f doc :: rest => applyEvents (upsert st f (saveBytes doc)) rest
  | _ :: rest => applyEvents st rest

/-! ## C1: the extractor's priority order -/

@[simp] lemma objGet_jobj (fs : List (List Char × JVal)) (k : List Char) :
    objGet (JVal.jobj fs) k = getKey fs k := rfl

@[simp] lemma objGet_jstr (s k : List Char) : objGet (JVal.jstr s) k = none := rfl

@[simp] lemma objGet_jnum (n : Nat) (k : List Char) : objGet (JVal.jnum n) k = none := rfl

@[simp] lemma objGet_jbool (b : Bool) (k : List Char) : objGet (JVal.jbool b) k = none := rfl

@[simp] lemma objGet_jnull (k : List Char) : objGet JVal.jnull k = none := rfl

@[simp] lemma objGet_jarr (es : List JVal) (k : List Char) : objGet (JVal.jarr es) k = none := rfl

@[simp] lemma goodStr_none : goodStr none = none := rfl

@[simp] lemma goodStr_jstr (s : List Char) :
    goodStr (some (JVal.jstr s)) = if stripWs s = [] then none else some s := rfl

@[simp] lemma goodStr_jobj (fs : List (List Char × JVal)) :
    goodStr (some (JVal.jobj fs)) = none := rfl

@[simp] lemma goodStr_jnum (n : Nat) : goodStr (some (JVal.jnum n)) = none := rfl

@[simp] lemma goodStr_jbool (b : Bool) : goodStr (some (JVal.jbool b)) = none := rfl

@[simp] lemma goodStr_jnull : goodStr (some JVal.jnull) = none := rfl

@[simp] lemma goodStr_jarr (es : List JVal) : goodStr (some (JVal.jarr es)) = none := rfl

@[simp] lemma firstGoodStr_nil : firstGoodStr [] = none := rfl

@[simp] lemma firstGoodStr_cons (v : Option JVal) (rest : List (Option JVal)) :
    firstGoodStr (v :: rest) = (goodStr v).orElse fun _ => firstGoodStr rest := by
  cases h : goodStr v <;> simp [firstGoodStr, h, Option.orElse]

/-- The extractor agrees with the specification's priority search on every
detail record. -/
lemma extract_eq_spec (d : JVal) : extract_sparql_query d = extractSpec d := by
  cases d with
  | jobj fields =>
    simp only [extract_sparql_query, extractSpec, objGet_jobj]
    cases hrc : getKey fields kRequestConfig with
    | none =>
      simp [Option.none_orElse', Option.orElse_none']
    | some rc =>
      cases rc with
      | jobj rcf =>
        simp only [Option.some_bind, objGet_jobj]
        cases hp : getKey rcf kPayload with
        | none => simp [Option.none_orElse', Option.orElse_none']
        | some p =>
          cases p with
          | jstr s =>
            simp only [firstGoodStr_cons, firstGoodStr_nil, goodStr_jstr, goodStr_none,
              objGet_jstr, Option.some_bind, Option.none_bind, Option.none_orElse',
              Option.orElse_none']
          | jobj pf =>
            simp only [firstGoodStr_cons, firstGoodStr_nil, goodStr_jobj, goodStr_none,
              objGet_jobj, Option.some_bind, Option.none_bind]
            cases h1 : goodStr (getKey pf kQuery) with
            | some s => simp [Option.some_orElse']
            | none =>
              cases h2 : goodStr (getKey pf kSparql) with
              | some s => simp [Option.some_orElse', Option.none_orElse']
              | none =>
                cases h3 : goodStr (getKey pf kQ) with
                | some s => simp [Option.some_orElse', Option.none_orElse']
                | none => simp [Option.none_orElse', Option.orElse_none']
          | jnum n => simp [Option.none_orElse', Option.orElse_none']
          | jbool b => simp [Option.none_orElse', Option.orElse_none']
          | jnull => simp [Option.none_orElse', Option.orElse_none']
          | jarr es => simp [Option.none_orElse', Option.orElse_none']
      | jstr s => simp [Option.none_orElse', Option.orElse_none']
      | jnum n => simp [Option.none_orElse', Option.orElse_none']
      | jbool b => simp [Option.none_orElse', Option.orElse_none']
      | jnull => simp [Option.none_orElse', Option.orElse_none']
      | jarr es => simp [Option.none_orElse', Option.orElse_none']
  | jstr s => rfl
  | jnum n => rfl
  | jbool b => rfl
  | jnull => rfl
  | jarr es => rfl

/-- The specification's scenario: the query under `requestConfig.payload.query`
together with a conflicting top-level `query` field. -/
def scenarioDetailC1 : JVal :=
  JVal.jobj
    [ (kRequestConfig, JVal.jobj
        [ (kPayload, JVal.jobj
            [ (kQuery, JVal.jstr (("  SELECT * WHERE \x7b ?s ?p ?o \x7d  ").toList)) ]) ]),
      (kQuery, JVal.jstr (("conflicting top-level query").toList)) ]

/-- C1: the extractor searches the fixed candidate locations in order
(`requestConfig.payload.query`, `.sparql`, `.q`, then `requestConfig.payload`
as a plain string, then top-level `query`, `sparql`, then `payload.query`)
and returns the first candidate that is a non-empty-after-trimming string;
in particular a non-empty `requestConfig.payload.query` wins over any
lower-priority key, and its value is returned untrimmed. -/
theorem claimC1_extractor_priority :
    (∀ d, extract_sparql_query d = extractSpec d) ∧
    (∀ fields rcf pf s,
      getKey fields kRequestConfig = some (JVal.jobj rcf) →
      getKey rcf kPayload = some (JVal.jobj pf) →
      getKey pf kQuery = some (JVal.jstr s) →
      ¬ stripWs s = [] →
      extract_sparql_query (JVal.jobj fields) = some s) ∧
    extract_sparql_query scenarioDetailC1 =
      some (("  SELECT * WHERE \x7b ?s ?p ?o \x7d  ").toList) := by
  refine ⟨extract_eq_spec, ?_, by decide⟩
  intro fields rcf pf s hrc hp hq hs
  simp [extract_sparql_query, hrc, hp, hq, hs, Option.some_orElse']

/-! ## C9: percent-encoding of the query name (`urllib.parse.quote`) -/

lemma char_toNat_lt (c : Char) : c.toNat < 1114112 := by
  have h := c.valid
  rcases h with h | ⟨h1, h2⟩ <;> simp only [Char.toNat] <;> omega

lemma utf8Bytes_lt (c : Char) : ∀ b ∈ utf8Bytes c, b < 256 := by
  intro b hb
  have hc := char_toNat_lt c
  simp only [utf8Bytes] at hb
  split_ifs at hb with h1 h2 h3 <;> simp at hb
  · omega
  · rcases hb with hb | hb <;> omega
  · rcases hb with hb | hb | hb <;> omega
  · rcases hb with hb | hb | hb | hb <;> omega

lemma hexDigitChar_safe : ∀ m, m < 16 → isQuoteSafe (hexDigitChar m) = true := by decide

lemma hexDigitChar_ne_slash : ∀ m, m < 16 → ¬ hexDigitChar m = '/' := by decide

lemma percentByte_chars (b : Nat) (hb : b < 256) (c : Char) (hc : c ∈ percentByte b) :
    c = '%' ∨ isQuoteSafe c = true := by
  simp only [percentByte, List.mem_cons, List.mem_singleton, List.not_mem_nil, or_false]
    at hc
  rcases hc with rfl | rfl | rfl
  · exact Or.inl rfl
  · exact Or.inr (hexDigitChar_safe _ (by omega))
  · exact Or.inr (hexDigitChar_safe _ (by omega))

/-- Every character `pyQuote` emits is either in the safe set or part of a
percent escape. -/
lemma pyQuote_chars (name : List Char) (c : Char) (hc : c ∈ pyQuote name) :
    isQuoteSafe c = true ∨ c = '%' := by
  simp only [pyQuote, List.mem_flatten, List.mem_map] at hc
  obtain ⟨l, ⟨x, hx, rfl⟩, hcl⟩ := hc
  cases hsafe : isQuoteSafe x with
  | true =>
    simp [hsafe] at hcl
    subst hcl
    exact Or.inl hsafe
  | false =>
    simp only [hsafe, Bool.false_eq_true, if_false, List.mem_flatten, List.mem_map] at hcl
    obtain ⟨l', ⟨b, hb, rfl⟩, hcb⟩ := hcl
    rcases percentByte_chars b (utf8Bytes_lt x b hb) c hcb with h | h
    · exact Or.inr h
    · exact Or.inl h

/-- A slash appears in the encoded name only when the raw name has one. -/
lemma pyQuote_slash (name : List Char) (h : ('/') ∈ pyQuote name) : ('/') ∈ name := by
  simp only [pyQuote, List.mem_flatten, List.mem_map] at h
  obtain ⟨l, ⟨x, hx, rfl⟩, hcl⟩ := h
  cases hsafe : isQuoteSafe x with
  | true =>
    simp [hsafe] at hcl
    subst hcl
    exact hx
  | false =>
    simp only [hsafe, Bool.false_eq_true, if_false, List.mem_flatten, List.mem_map] at hcl
    obtain ⟨l', ⟨b, hb, rfl⟩, hcb⟩ := hcl
    have hblt := utf8Bytes_lt x b hb
    simp only [percentByte, List.mem_cons, List.mem_singleton, List.not_mem_nil, or_false]
      at hcb
    rcases hcb with hcb | hcb | hcb
    · exact absurd hcb.symm (by decide)
    · exact absurd hcb.symm (hexDigitChar_ne_slash _ (by omega))
    · exact absurd hcb.symm (hexDigitChar_ne_slash _ (by omega))

/-- C9 counterexample: `quote` is called with its default safe set, so a
slash in the query name passes through unescaped — it is placed in the path
segment verbatim and acts as a path separator, contrary to the claim that
characters like `/` cannot break the request path. -/
theorem claimC9_counterexample :
    pyQuote (("a/b").toList) = ("a/b").toList ∧ ('/') ∈ pyQuote (("a/b").toList) := by
  constructor
  · decide
  · decide

/-- C9 (amended): `fetch_query_details` percent-encodes the query name with
`urllib.parse.quote`'s default safe set: every emitted character is either
URL-safe (ASCII alphanumeric, `_.-~`, or `/`) or part of a `%XX` escape;
spaces and non-ASCII characters are escaped (` ` → `%20`, `é` → `%C3%A9`);
but `/` itself is never escaped and survives exactly when the name
contains it. -/
theorem claimC9_quote_encoding :
    (∀ name c, c ∈ pyQuote name → isQuoteSafe c = true ∨ c = '%') ∧
    (∀ name, ('/') ∈ pyQuote name → ('/') ∈ name) ∧
    pyQuote ((" ").toList) = ("%20").toList ∧
    pyQuote (("é").toList) = ("%C3%A9").toList ∧
    pyQuote (("a b~_.-").toList) = ("a%20b~_.-").toList := by
  exact ⟨pyQuote_chars, pyQuote_slash, by decide, by decide, by decide⟩

/-! ## C5: 2xx responses whose body is not JSON -/

/-- The specification's Turtle scenario response: 200, `text/turtle`,
body `<a> <b> <c> .`, which does not parse as JSON. -/
def turtleResponse : HttpResponse :=
  { status := 200
    contentType := some (("text/turtle").toList)
    jsonBody := none
    text := ("<a> <b> <c> .").toList
    errMsg := [] }

/-- C5: a 2xx response whose body does not parse as JSON yields the
non-JSON-shaped result carrying the status code, the content-type, and a
text sample equal to the raw text truncated to its first 10000 characters —
untruncated whenever the text is shorter; in particular the Turtle scenario
returns its body verbatim in `text_sample`. -/
theorem claimC5_non_json_result :
    (∀ r q qid, 200 ≤ r.status → r.status < 300 → ¬ stripWs q = [] →
      r.jsonBody = none →
      execute_sparql (PostResult.success r) q qid =
        JVal.jobj [(kError, JVal.jstr msgNonJson),
                   (kStatusCode, JVal.jnum r.status),
                   (kContentType, ctJVal r.contentType),
                   (kTextSample, JVal.jstr (r.text.take 10000))]) ∧
    (∀ t : List Char, t.length ≤ 10000 → t.take 10000 = t) ∧
    (∀ q qid, ¬ stripWs q = [] →
      execute_sparql (PostResult.success turtleResponse) q qid =
        JVal.jobj [(kError, JVal.jstr msgNonJson),
                   (kStatusCode, JVal.jnum 200),
                   (kContentType, JVal.jstr (("text/turtle").toList)),
                   (kTextSample, JVal.jstr (("<a> <b> <c> .").toList))]) := by
  refine ⟨?_, ?_, ?_⟩
  · intro r q qid h2 h3 hq hbody
    simp [execute_sparql, hq, hbody, Nat.not_le.mpr (by omega : r.status < 400)]
  · intro t ht
    exact List.take_of_length_le ht
  · intro q qid hq
    simp [execute_sparql, hq, turtleResponse, ctJVal]

/-! ## C2: crawl termination on failed or empty pages -/

@[simp] lemma writesOf_nil : writesOf [] = [] := rfl
@[simp] lemma writesOf_pageFetch (n : Nat) (evs : List Event) :
    writesOf (Event.pageFetch n :: evs) = writesOf evs := rfl
@[simp] lemma writesOf_resolve (o n : List Char) (evs : List Event) :
    writesOf (Event.resolveCall o n :: evs) = writesOf evs := rfl
@[simp] lemma writesOf_exec (q : List Char) (i : Option (List Char)) (evs : List Event) :
    writesOf (Event.execCall q i :: evs) = writesOf evs := rfl
@[simp] lemma writesOf_write (f : List Char) (d : Artifact) (evs : List Event) :
    writesOf (Event.writeFile f d :: evs) = (f, d) :: writesOf evs := rfl
@[simp] lemma writesOf_append (a b : List Event) :
    writesOf (a ++ b) = writesOf a ++ writesOf b := List.filterMap_append a b _

@[simp] lemma pagesFetched_nil : pagesFetched [] = [] := rfl
@[simp] lemma pagesFetched_pageFetch (n : Nat) (evs : List Event) :
    pagesFetched (Event.pageFetch n :: evs) = n :: pagesFetched evs := rfl
@[simp] lemma pagesFetched_resolve (o n : List Char) (evs : List Event) :
    pagesFetched (Event.resolveCall o n :: evs) = pagesFetched evs := rfl
@[simp] lemma pagesFetched_exec (q : List Char) (i : Option (List Char)) (evs : List Event) :
    pagesFetched (Event.execCall q i :: evs) = pagesFetched evs := rfl
@[simp] lemma pagesFetched_write (f : List Char) (d : Artifact) (evs : List Event) :
    pagesFetched (Event.writeFile f d :: evs) = pagesFetched evs := rfl
@[simp] lemma pagesFetched_append (a b : List Event) :
    pagesFetched (a ++ b) = pagesFetched a ++ pagesFetched b := List.filterMap_append a b _

@[simp] lemma execCallsOf_nil : execCallsOf [] = [] := rfl
@[simp] lemma execCallsOf_pageFetch (n : Nat) (evs : List Event) :
    execCallsOf (Event.pageFetch n :: evs) = execCallsOf evs := rfl
@[simp] lemma execCallsOf_resolve (o n : List Char) (evs : List Event) :
    execCallsOf (Event.resolveCall o n :: evs) = execCallsOf evs := rfl
@[simp] lemma execCallsOf_exec (q : List Char) (i : Option (List Char)) (evs : List Event) :
    execCallsOf (Event.execCall q i :: evs) = q :: execCallsOf evs := rfl
@[simp] lemma execCallsOf_write (f : List Char) (d : Artifact) (evs : List Event) :
    execCallsOf (Event.writeFile f d :: evs) = execCallsOf evs := rfl
@[simp] lemma execCallsOf_append (a b : List Event) :
    execCallsOf (a ++ b) = execCallsOf a ++ execCallsOf b := List.filterMap_append a b _

lemma process_pagesFetched (env : Env) (item : CatalogItem) :
    pagesFetched (process_catalog_item env item).1 = [] := by
  simp only [process_catalog_item]
  repeat' split
  all_goals simp

lemma process_count_le_one (env : Env) (item : CatalogItem) :
    (process_catalog_item env item).2 ≤ 1 := by
  simp only [process_catalog_item]
  repeat' split
  all_goals simp



/-- A page observation that terminates the crawl: fetch failure or zero items. -/
def badPage (env : Env) (p : Nat) : Prop :=
  env.fetchPage p = none ∨ env.fetchPage p = some []

lemma pagesFetched_batch (env : Env) (items : List CatalogItem) :
    pagesFetched ((items.map (Prod.fst ∘ process_catalog_item env)).flatten) = [] := by
  induction items with
  | nil => simp [pagesFetched]
  | cons it rest ih => simp [ih, Function.comp_apply, process_pagesFetched]

/-- A failed or empty page stops the crawl at once: the trace is just that
page's fetch, no resolver call, no further page fetch, nothing processed. -/
lemma crawl_stops_at_bad (env : Env) (fuel p : Nat) (h : badPage env p) :
    crawlLoop env (fuel + 1) p = ([Event.pageFetch p], 0) := by
  rcases h with h | h <;> simp [crawlLoop, h]

/-- A page is fetched only when every earlier page (from the start page on)
was good. -/
lemma crawl_pages_good (env : Env) :
    ∀ fuel p n, n ∈ pagesFetched (crawlLoop env fuel p).1 →
      p ≤ n ∧ ∀ m, p ≤ m → m < n → ¬ badPage env m := by
  intro fuel
  induction fuel with
  | zero =>
    intro p n h
    simp [crawlLoop] at h
  | succ fuel ih =>
    intro p n h
    rcases hf : env.fetchPage p with _ | items
    · rw [crawl_stops_at_bad env fuel p (Or.inl hf)] at h
      simp at h
      subst h
      exact ⟨Nat.le_refl _, fun m h1 h2 => absurd h2 (by omega)⟩
    · by_cases hemp : items = []
      · subst hemp
        rw [crawl_stops_at_bad env fuel p (Or.inr hf)] at h
        simp at h
        subst h
        exact ⟨Nat.le_refl _, fun m h1 h2 => absurd h2 (by omega)⟩
      · have hne : items.isEmpty = false := by
          cases items
          · exact absurd rfl hemp
          · rfl
        simp only [crawlLoop, hf, hne] at h
        simp [List.map_map, pagesFetched_batch] at h
        rcases h with rfl | h
        · exact ⟨Nat.le_refl _, fun m h1 h2 => absurd h2 (by omega)⟩
        · obtain ⟨hle, hgood⟩ := ih (p + 1) n h
          refine ⟨by omega, fun m hm1 hm2 => ?_⟩
          rcases Nat.eq_or_lt_of_le hm1 with rfl | hlt
          · intro hb
            rcases hb with hb | hb
            · rw [hf] at hb; exact Option.noConfusion hb
            · rw [hf] at hb
              have : items = [] := by
                injection hb
              exact hemp this
          · exact hgood m (by omega) hm2


/-- The specification's two-page scenario: page 1 holds one valid item,
page 2 is empty, and any later page would hold an item again (so reaching
it would be visible in the trace). -/
def c2Item : CatalogItem :=
  { id := some (("q1").toList)
    name := some (("Parcels near X").toList)
    owner := some (("alice").toList) }

def c2Detail : JVal :=
  JVal.jobj
    [ (kRequestConfig, JVal.jobj
        [ (kPayload, JVal.jobj [ (kQuery, JVal.jstr (("SELECT 1").toList)) ]) ]) ]

def c2Env : Env :=
  { fetchPage := fun n => if n = 1 then some [c2Item] else if n = 2 then some [] else some [c2Item]
    resolve := fun _ _ => some c2Detail
    execute := fun _ _ => JVal.jobj [(kError, JVal.jstr (("boom").toList))] }

/-- C2: a failed page fetch or a page with zero items terminates the crawl:
the trace of such a page is exactly its own fetch event (no resolver call,
no later fetch), any fetched page has only good pages before it, and in the
two-page scenario exactly one artifact (`q1.json`) is written, the count is
1, and pages [1, 2] are the only fetches (no page 3). -/
theorem claimC2_crawl_termination :
    (∀ env fuel p, badPage env p → crawlLoop env (fuel + 1) p = ([Event.pageFetch p], 0)) ∧
    (∀ env fuel p n, n ∈ pagesFetched (crawlLoop env fuel p).1 →
      p ≤ n ∧ ∀ m, p ≤ m → m < n → ¬ badPage env m) ∧
    (crawl_main c2Env 10).2 = 1 ∧
    ((writesOf (crawl_main c2Env 10).1).map Prod.fst) = [("q1").toList ++ jsonExt] ∧
    pagesFetched (crawl_main c2Env 10).1 = [1, 2] := by
  refine ⟨fun env fuel p h => crawl_stops_at_bad env fuel p h,
    fun env fuel p n h => crawl_pages_good env fuel p n h, ?_, ?_, ?_⟩
  · decide
  · decide
  · decide

/-! ## C6, C10, C4: per-item outcomes -/

lemma buildArtifact_fields (dfields : List (List Char × JVal)) (qid : Option (List Char))
    (code : Option (List Char)) (res : JVal) (doc : Artifact)
    (h : buildArtifact dfields qid code res = some doc) :
    doc.meta_id = qid ∧ doc.output_sparql = code ∧ doc.execution_result_sample = res := by
  simp only [buildArtifact] at h
  cases how : ownerNameField dfields with
  | none => rw [how] at h; exact Option.noConfusion h
  | some ow =>
    cases hov : vizField dfields with
    | none => rw [how, hov] at h; exact Option.noConfusion h
    | some viz =>
      rw [how, hov] at h
      injection h with h
      subst h
      exact ⟨rfl, rfl, rfl⟩

lemma process_exec_shape (env : Env) (item : CatalogItem) (details : JVal)
    (dfields : List (List Char × JVal)) (q : List Char) (doc : Artifact)
    (hn : truthyOptStr item.name = true) (ho : truthyOptStr item.owner = true)
    (hres : env.resolve (item.owner.getD []) (item.name.getD []) = some details)
    (ht : jTruthy details = true)
    (hd : details = JVal.jobj dfields)
    (hq : cleanOpt (extract_sparql_query details) = some q)
    (hqne : ¬ q = [])
    (hbuild : buildArtifact dfields item.id (some q) (env.execute q item.id) = some doc) :
    process_catalog_item env item =
      ([Event.resolveCall (item.owner.getD []) (item.name.getD []),
        Event.execCall q item.id,
        Event.writeFile (idStr item.id ++ jsonExt) doc], 1) := by
  have htr : truthyOptStr (some q) = true := by
    simp [truthyOptStr, List.isEmpty_iff, hqne]
  simp only [process_catalog_item, hres, hq, ht, if_true, htr]
  rw [if_pos ⟨hn, ho⟩]
  subst hd
  simp [hbuild]


/-- The per-item pipeline when extraction/cleaning yields nothing usable:
no execution call, the skip marker is recorded, the artifact is still
written and the item still counts. -/
lemma process_skip_shape (env : Env) (item : CatalogItem) (details : JVal)
    (dfields : List (List Char × JVal)) (doc : Artifact)
    (hn : truthyOptStr item.name = true) (ho : truthyOptStr item.owner = true)
    (hres : env.resolve (item.owner.getD []) (item.name.getD []) = some details)
    (ht : jTruthy details = true)
    (hd : details = JVal.jobj dfields)
    (hq : cleanOpt (extract_sparql_query details) = none)
    (hbuild : buildArtifact dfields item.id none skippedMarker = some doc) :
    process_catalog_item env item =
      ([Event.resolveCall (item.owner.getD []) (item.name.getD []),
        Event.writeFile (idStr item.id ++ jsonExt) doc], 1) := by
  simp only [process_catalog_item, hres, hq, ht, if_true]
  rw [if_pos ⟨hn, ho⟩]
  subst hd
  simp [hbuild, truthyOptStr]

/-- Items missing a name or an owner are skipped outright. -/
lemma process_missing_name_owner (env : Env) (item : CatalogItem)
    (h : ¬ (truthyOptStr item.name = true ∧ truthyOptStr item.owner = true)) :
    process_catalog_item env item = ([], 0) := by
  simp only [process_catalog_item]
  rw [if_neg ?_]
  intro hc
  exact h ⟨hc.1, hc.2⟩

/-- Whenever name and owner are truthy, the resolver is invoked first,
whatever the id. -/
lemma process_resolves_first (env : Env) (item : CatalogItem)
    (hn : truthyOptStr item.name = true) (ho : truthyOptStr item.owner = true) :
    ∃ rest, (process_catalog_item env item).1 =
      Event.resolveCall (item.owner.getD []) (item.name.getD []) :: rest := by
  simp only [process_catalog_item]
  rw [if_pos ⟨hn, ho⟩]
  cases env.resolve (item.owner.getD []) (item.name.getD []) with
  | none => exact ⟨[], rfl⟩
  | some details =>
    by_cases ht : jTruthy details = true
    · simp only [ht, if_true]
      cases details <;> repeat' split
      all_goals exact ⟨_, rfl⟩
    · simp only [if_neg ht]
      exact ⟨[], rfl⟩


/-- After a non-empty page the crawl goes on to fetch the next page. -/
lemma crawl_continues (env : Env) (fuel p : Nat) (items : List CatalogItem)
    (hf : env.fetchPage p = some items) (hne : ¬ items = []) :
    (p + 1) ∈ pagesFetched (crawlLoop env (fuel + 2) p).1 := by
  have hne' : items.isEmpty = false := by
    cases items
    · exact absurd rfl hne
    · rfl
  show (p + 1) ∈ pagesFetched (crawlLoop env (fuel + 1 + 1) p).1
  cases hf2 : env.fetchPage (p + 1) with
  | none => simp [crawlLoop, hf, hne', hf2, pagesFetched_batch, List.map_map]
  | some items2 =>
    by_cases he2 : items2.isEmpty <;>
      simp [crawlLoop, hf, hne', hf2, he2, pagesFetched_batch, List.map_map]


/-- The specification's HTTP 500 scenario response. -/
def c6Response : HttpResponse :=
  { status := 500
    contentType := none
    jsonBody := none
    text := []
    errMsg := ("500 Server Error").toList }

/-- A crawl whose execution endpoint always answers HTTP 500. -/
def c6Env : Env :=
  { fetchPage := fun n => if n = 1 then some [c2Item] else some []
    resolve := fun _ _ => some c2Detail
    execute := fun q i => execute_sparql (PostResult.success c6Response) q i }

/-- A 304 Not Modified response with a non-JSON (empty) body: a non-2xx
status for which `raise_for_status` does not raise, so `session.post`
hands it back to `execute_sparql` like a success. -/
def c6NotModified : HttpResponse :=
  { status := 304
    contentType := some (("text/html").toList)
    jsonBody := none
    text := []
    errMsg := ("304 Not Modified").toList }

/-- C6 counterexample: a 304 execution response is non-2xx, yet
`raise_for_status` raises only for 4xx/5xx, so `execute_sparql` returns the
non-JSON shape with `status_code` 304 — not the error result carrying the
failure description — refuting the claim as stated for non-2xx statuses
outside the 4xx/5xx range. -/
theorem claimC6_counterexample :
    execute_sparql (PostResult.success c6NotModified) (("SELECT 1").toList) none =
      JVal.jobj [(kError, JVal.jstr msgNonJson),
                 (kStatusCode, JVal.jnum 304),
                 (kContentType, JVal.jstr (("text/html").toList)),
                 (kTextSample, JVal.jstr [])] ∧
    ¬ execute_sparql (PostResult.success c6NotModified) (("SELECT 1").toList) none =
      JVal.jobj [(kError, JVal.jstr (execFailedMsg c6NotModified.errMsg))] := by
  have hres : execute_sparql (PostResult.success c6NotModified) (("SELECT 1").toList) none =
      JVal.jobj [(kError, JVal.jstr msgNonJson),
                 (kStatusCode, JVal.jnum 304),
                 (kContentType, JVal.jstr (("text/html").toList)),
                 (kTextSample, JVal.jstr [])] := rfl
  refine ⟨hres, ?_⟩
  rw [hres]
  intro h
  simp [JVal.jobj.injEq] at h

/-- C6 (amended): `raise_for_status` raises exactly for 4xx/5xx, so only a
4xx/5xx execution response yields the error result carrying the failure
description, while any other status the session hands back (such as a 3xx)
takes the JSON-body or non-JSON branch instead; for a 4xx/5xx response the
artifact is still written with that error embedded under
`execution_result_sample`, the item still counts as processed, and the crawl
continues; the HTTP-500 scenario runs end to end with one write whose
sample is the error object and a processed count of 1. -/
theorem claimC6_http_error_handling :
    (∀ r q qid, 400 ≤ r.status → r.status < 600 → ¬ stripWs q = [] →
      execute_sparql (PostResult.success r) q qid =
        JVal.jobj [(kError, JVal.jstr (execFailedMsg r.errMsg))]) ∧
    (∀ r q qid, ¬ (400 ≤ r.status ∧ r.status < 600) → ¬ stripWs q = [] →
      execute_sparql (PostResult.success r) q qid =
        (match r.jsonBody with
         | some j => j
         | none =>
           JVal.jobj [(kError, JVal.jstr msgNonJson),
                      (kStatusCode, JVal.jnum r.status),
                      (kContentType, ctJVal r.contentType),
                      (kTextSample, JVal.jstr (r.text.take 10000))])) ∧
    (∀ env item details dfields q doc,
      truthyOptStr item.name = true → truthyOptStr item.owner = true →
      env.resolve (item.owner.getD []) (item.name.getD []) = some details →
      jTruthy details = true → details = JVal.jobj dfields →
      cleanOpt (extract_sparql_query details) = some q → ¬ q = [] →
      buildArtifact dfields item.id (some q) (env.execute q item.id) = some doc →
      process_catalog_item env item =
        ([Event.resolveCall (item.owner.getD []) (item.name.getD []),
          Event.execCall q item.id,
          Event.writeFile (idStr item.id ++ jsonExt) doc], 1) ∧
        doc.execution_result_sample = env.execute q item.id) ∧
    (∀ env fuel p items, env.fetchPage p = some items → ¬ items = [] →
      (p + 1) ∈ pagesFetched (crawlLoop env (fuel + 2) p).1) ∧
    (crawl_main c6Env 10).2 = 1 ∧
    (writesOf (crawl_main c6Env 10).1).map Prod.fst = [("q1").toList ++ jsonExt] ∧
    (writesOf (crawl_main c6Env 10).1).map (fun w => w.2.execution_result_sample) =
      [JVal.jobj [(kError, JVal.jstr (execFailedMsg (("500 Server Error").toList)))]] ∧
    pagesFetched (crawl_main c6Env 10).1 = [1, 2] := by
  refine ⟨?_, ?_, ?_, crawl_continues, by decide, by decide, by rfl, by decide⟩
  · intro r q qid h1 h2 hq
    simp only [execute_sparql, if_neg hq]
    rw [if_pos ⟨h1, h2⟩]
  · intro r q qid hout hq
    simp only [execute_sparql, if_neg hq]
    rw [if_neg hout]
  · intro env item details dfields q doc hn ho hres ht hd hq hqne hbuild
    exact ⟨process_exec_shape env item details dfields q doc hn ho hres ht hd hq hqne hbuild,
      (buildArtifact_fields dfields item.id (some q) (env.execute q item.id) doc hbuild).2.2⟩



/-- A catalog item with name and owner present but no id. -/
def c10Item : CatalogItem :=
  { id := none
    name := some (("Null id query").toList)
    owner := some (("bob").toList) }

def c10Env : Env :=
  { fetchPage := fun n => if n = 1 then some [c10Item] else some []
    resolve := fun _ _ => some c2Detail
    execute := fun _ _ => JVal.jobj [] }

/-- C10: only a missing/empty name or owner skips an item; a missing id does
not: the item is resolved, extracted, executed and persisted like any other,
the artifact file is `None.json` and its `meta.id` is null. -/
theorem claimC10_null_id_not_skipped :
    (∀ env item, ¬ (truthyOptStr item.name = true ∧ truthyOptStr item.owner = true) →
      process_catalog_item env item = ([], 0)) ∧
    (∀ env item, truthyOptStr item.name = true → truthyOptStr item.owner = true →
      ∃ rest, (process_catalog_item env item).1 =
        Event.resolveCall (item.owner.getD []) (item.name.getD []) :: rest) ∧
    (∀ env item details dfields q doc, item.id = none →
      truthyOptStr item.name = true → truthyOptStr item.owner = true →
      env.resolve (item.owner.getD []) (item.name.getD []) = some details →
      jTruthy details = true → details = JVal.jobj dfields →
      cleanOpt (extract_sparql_query details) = some q → ¬ q = [] →
      buildArtifact dfields item.id (some q) (env.execute q item.id) = some doc →
      process_catalog_item env item =
        ([Event.resolveCall (item.owner.getD []) (item.name.getD []),
          Event.execCall q none,
          Event.writeFile (("None").toList ++ jsonExt) doc], 1) ∧
        doc.meta_id = none) ∧
    (crawl_main c10Env 10).2 = 1 ∧
    (writesOf (crawl_main c10Env 10).1).map Prod.fst = [("None").toList ++ jsonExt] ∧
    (writesOf (crawl_main c10Env 10).1).map (fun w => w.2.meta_id) = [none] := by
  refine ⟨process_missing_name_owner, process_resolves_first, ?_, by decide, by decide,
    by decide⟩
  intro env item details dfields q doc hid hn ho hres ht hd hq hqne hbuild
  have hshape := process_exec_shape env item details dfields q doc hn ho hres ht hd hq hqne hbuild
  have hfields := buildArtifact_fields dfields item.id (some q) (env.execute q item.id) doc hbuild
  rw [hid] at hshape
  exact ⟨by simpa [idStr] using hshape, hid ▸ hfields.1⟩

/-- A detail record whose only query text normalizes to nothing (a quoted
dash-marker line). -/
def c4Detail : JVal :=
  JVal.jobj [ (kQuery, JVal.jstr (("\"---\"").toList)) ]

def c4Env : Env :=
  { fetchPage := fun n => if n = 1 then some [c2Item] else some []
    resolve := fun _ _ => some c4Detail
    execute := fun _ _ => JVal.jobj [] }

/-- C4: a cleaning result that would be empty is reported as absent (never
the empty string), and an absent query skips execution entirely: no
execution call is made, the artifact is still written, carrying the
explicit skipped-execution marker and a null `output_sparql`, and the item
still counts as processed (not an error). -/
theorem claimC4_absent_skips_execution :
    (∀ x y, clean_sparql_query x = some y → 0 < y.length) ∧
    (∀ env item details dfields doc,
      truthyOptStr item.name = true → truthyOptStr item.owner = true →
      env.resolve (item.owner.getD []) (item.name.getD []) = some details →
      jTruthy details = true → details = JVal.jobj dfields →
      cleanOpt (extract_sparql_query details) = none →
      buildArtifact dfields item.id none skippedMarker = some doc →
      process_catalog_item env item =
        ([Event.resolveCall (item.owner.getD []) (item.name.getD []),
          Event.writeFile (idStr item.id ++ jsonExt) doc], 1) ∧
        doc.execution_result_sample = skippedMarker ∧
        doc.output_sparql = none ∧
        execCallsOf (process_catalog_item env item).1 = []) ∧
    clean_sparql_query (("   ").toList) = none ∧
    clean_sparql_query (("\"---\"").toList) = none ∧
    (crawl_main c4Env 10).2 = 1 ∧
    execCallsOf (crawl_main c4Env 10).1 = [] ∧
    (writesOf (crawl_main c4Env 10).1).map Prod.fst = [("q1").toList ++ jsonExt] ∧
    (writesOf (crawl_main c4Env 10).1).map (fun w => w.2.execution_result_sample) =
      [skippedMarker] ∧
    (writesOf (crawl_main c4Env 10).1).map (fun w => w.2.output_sparql) = [none] := by
  refine ⟨?_, ?_, by decide, by decide, by decide, by decide, by decide, by rfl, by decide⟩
  · intro x y h
    simp only [clean_sparql_query] at h
    split at h
    · exact Option.noConfusion h
    · next hcond =>
        injection h with h
        subst h
        simpa [List.length_pos] using hcond
  · intro env item details dfields doc hn ho hres ht hd hq hbuild
    have hshape := process_skip_shape env item details dfields doc hn ho hres ht hd hq hbuild
    have hfields := buildArtifact_fields dfields item.id none skippedMarker doc hbuild
    refine ⟨hshape, hfields.2.2, hfields.2.1, ?_⟩
    rw [hshape]
    rfl


/-! ## C7: the artifact writer -/

/-- Every write the per-item pipeline performs names its file by the
artifact's own `meta.id`. -/
lemma process_writes_filename (env : Env) (item : CatalogItem) (f : List Char)
    (doc : Artifact) (h : (f, doc) ∈ writesOf (process_catalog_item env item).1) :
    f = idStr doc.meta_id ++ jsonExt := by
  by_cases hcond : truthyOptStr item.name = true ∧ truthyOptStr item.owner = true
  case neg =>
    rw [process_missing_name_owner env item hcond] at h
    simp [writesOf] at h
  case pos =>
    simp only [process_catalog_item, if_pos hcond] at h
    cases hres : env.resolve (item.owner.getD []) (item.name.getD []) with
    | none => simp only [hres, writesOf, List.filterMap_nil] at h; simp at h
    | some details =>
      simp only [hres] at h
      by_cases ht : jTruthy details = true
      case neg =>
        rw [if_neg ht] at h
        simp [writesOf] at h
      case pos =>
        rw [if_pos ht] at h
        cases details with
        | jobj dfields =>
          cases hb : buildArtifact dfields item.id
              (cleanOpt (extract_sparql_query (JVal.jobj dfields)))
              (if truthyOptStr (cleanOpt (extract_sparql_query (JVal.jobj dfields))) = true
               then env.execute ((cleanOpt (extract_sparql_query (JVal.jobj dfields))).getD [])
                      item.id
               else skippedMarker) with
          | none =>
            simp only [hb] at h
            split at h <;> simp [writesOf] at h
          | some doc' =>
            simp only [hb] at h
            have hfields := buildArtifact_fields _ _ _ _ _ hb
            split at h <;> simp [writesOf] at h <;>
              · obtain ⟨hf, hd⟩ := h
                subst hf
                subst hd
                rw [hfields.1]
        | jstr s =>
          split at h <;> simp_all [writesOf] <;>
            (obtain ⟨a, ⟨hx, rfl⟩, hmm⟩ := h; simp at hmm)
        | jnum n =>
          split at h <;> simp_all [writesOf] <;>
            (obtain ⟨a, ⟨hx, rfl⟩, hmm⟩ := h; simp at hmm)
        | jbool b =>
          split at h <;> simp_all [writesOf] <;>
            (obtain ⟨a, ⟨hx, rfl⟩, hmm⟩ := h; simp at hmm)
        | jnull =>
          split at h <;> simp_all [writesOf] <;>
            (obtain ⟨a, ⟨hx, rfl⟩, hmm⟩ := h; simp at hmm)
        | jarr es =>
          split at h <;> simp_all [writesOf] <;>
            (obtain ⟨a, ⟨hx, rfl⟩, hmm⟩ := h; simp at hmm)


/-- A character needing no JSON escape is emitted verbatim. -/
lemma escapeChar_plain (c : Char) (h : needsEscape c = false) : escapeChar c = [c] := by
  simp only [needsEscape, decide_eq_false_iff_not, not_or] at h
  obtain ⟨h1, h2, h3⟩ := h
  have hn : ¬ c = '\n' := fun hh => h3 (by rw [hh]; decide)
  have htb : ¬ c = '\t' := fun hh => h3 (by rw [hh]; decide)
  have hr : ¬ c = '\r' := fun hh => h3 (by rw [hh]; decide)
  have h8 : ¬ c.toNat = 8 := fun hh => h3 (by omega)
  have h12 : ¬ c.toNat = 12 := fun hh => h3 (by omega)
  simp [escapeChar, h1, h2, hn, htb, hr, h8, h12, h3]

/-- Unescaped characters of a string value survive JSON serialization
verbatim. -/
lemma mem_escapeStr (s : List Char) (c : Char) (hc : c ∈ s)
    (h : needsEscape c = false) : c ∈ escapeStr s := by
  simp only [escapeStr, List.mem_flatten, List.mem_map]
  exact ⟨escapeChar c, ⟨c, hc, rfl⟩, by rw [escapeChar_plain c h]; exact List.mem_singleton.mpr rfl⟩

/-- A character of one field's serialized value occurs in the serialized
field list. -/
lemma mem_serializeFields (fs : List (List Char × JVal)) (ind : Nat)
    (k : List Char) (v : JVal) (hmem : (k, v) ∈ fs) (c : Char)
    (hc : c ∈ serializeJVal v ind) : c ∈ serializeFields fs ind := by
  induction fs with
  | nil => exact absurd hmem (List.not_mem_nil _)
  | cons f fs' ih =>
    obtain ⟨k', v'⟩ := f
    cases fs' with
    | nil =>
      rcases List.mem_singleton.mp hmem with h
      injection h with h1 h2
      subst h1; subst h2
      simp [serializeFields, List.mem_append]
      tauto
    | cons f2 fs2 =>
      rcases List.mem_cons.mp hmem with h | h
      · injection h with h1 h2
        subst h1; subst h2
        simp [serializeFields, List.mem_append]
        tauto
      · have hih := ih h
        simp only [serializeFields, List.mem_append] at hih ⊢
        simp at hih ⊢
        tauto

/-- An unescaped character of the artifact's `output_sparql` string occurs
in the bytes `save_entry` writes. -/
lemma mem_saveBytes (doc : Artifact) (s : List Char) (c : Char)
    (hout : doc.output_sparql = some s) (hc : c ∈ s) (h : needsEscape c = false) :
    c ∈ saveBytes doc := by
  have h1 : c ∈ serializeJVal (optStrJVal doc.output_sparql) (0 + 4) := by
    rw [hout]
    simp only [optStrJVal, serializeJVal]
    rcases List.mem_append.mpr (Or.inl (mem_escapeStr s c hc h)) with hmm
    exact List.mem_cons.mpr (Or.inr hmm)
  have h2 : c ∈ serializeFields
      [ (kMeta, JVal.jobj
          [ (kId, optStrJVal doc.meta_id),
            (kName, doc.meta_name),
            (kDescription, doc.meta_description),
            (kOwner, doc.meta_owner),
            (kVisualization, doc.meta_visualization) ]),
        (kPromptContext, JVal.jobj
          [ (kPrefixes, doc.prompt_prefixes),
            (kDatasetName, doc.prompt_dataset_name) ]),
        (kInputNL, doc.input_natural_language),
        (kOutputSparql, optStrJVal doc.output_sparql),
        (kExecSample, doc.execution_result_sample) ] (0 + 4) := by
    refine mem_serializeFields _ (0 + 4) kOutputSparql (optStrJVal doc.output_sparql) ?_ c h1
    simp
  simp only [saveBytes, artifactJson, serializeJVal]
  simp only [List.mem_cons, List.mem_append]
  tauto

/-- Writing under a key replaces exactly that key's content and nothing else. -/
lemma lookupStore_upsert (st : List (List Char × List Char)) (k v g : List Char) :
    lookupStore (upsert st k v) g = if g = k then some v else lookupStore st g := by
  induction st with
  | nil =>
    by_cases hg : g = k
    · simp [upsert, lookupStore, hg]
    · simp [upsert, lookupStore, hg, Ne.symm hg]
  | cons p rest ih =>
    obtain ⟨k', v'⟩ := p
    by_cases hk : k' = k
    · subst hk
      by_cases hg : g = k'
      · subst hg
        simp [upsert, lookupStore]
      · simp [upsert, lookupStore, hg, Ne.symm hg]
    · by_cases hg : g = k'
      · subst hg
        simp [upsert, lookupStore, hk]
      · simp [upsert, lookupStore, hk, Ne.symm hg, ih]

/-- Writing never deletes: the key set is unchanged (key present) or gains
exactly the new key (key absent). -/
lemma upsert_keys (st : List (List Char × List Char)) (k v : List Char) :
    (upsert st k v).map Prod.fst =
      if k ∈ st.map Prod.fst then st.map Prod.fst else st.map Prod.fst ++ [k] := by
  induction st with
  | nil => simp [upsert]
  | cons p rest ih =>
    obtain ⟨k', v'⟩ := p
    by_cases hk : k' = k
    · subst hk
      simp [upsert]
    · by_cases hmem : k ∈ rest.map Prod.fst <;>
        simp [upsert, hk, Ne.symm hk, ih, hmem]

lemma count_one_of_nodup_mem (l : List (List Char)) (k : List Char)
    (h : l.Nodup) (hm : k ∈ l) : l.count k = 1 := by
  induction l with
  | nil => simp at hm
  | cons a t ih =>
    rcases List.mem_cons.mp hm with rfl | hmk
    · have hnot : k ∉ t := (List.nodup_cons.mp h).1
      simp [List.count_cons, List.count_eq_zero.mpr hnot]
    · have hcnt := ih (List.nodup_cons.mp h).2 hmk
      have hne : ¬ k = a := by
        intro hh
        subst hh
        exact (List.nodup_cons.mp h).1 hmk
      simp [List.count_cons, hcnt, hne]

/-- After a write under distinct keys there is exactly one file for the
written key. -/
lemma upsert_count_nodup (st : List (List Char × List Char)) (k v : List Char)
    (h : (st.map Prod.fst).Nodup) :
    ((upsert st k v).map Prod.fst).Nodup ∧ ((upsert st k v).map Prod.fst).count k = 1 := by
  rw [upsert_keys]
  by_cases hmem : k ∈ st.map Prod.fst
  · simp only [hmem, if_true]
    exact ⟨h, count_one_of_nodup_mem _ _ h hmem⟩
  · simp only [hmem, if_false]
    constructor
    · simp [List.nodup_append, h, hmem]
    · rw [List.count_append]
      simp [List.count_eq_zero.mpr hmem]

/-- C7: every artifact's filename-derived key equals its `meta.id`
(`None` for a null id); strings serialize with `ensure_ascii` off, so any
character needing no JSON escape — in particular any non-ASCII character —
appears verbatim in the written bytes; and a write replaces exactly its own
key: two writes with the same id leave one entry holding the second
content, all other keys untouched, nothing deleted. -/
theorem claimC7_artifact_writer :
    (∀ env item f doc, (f, doc) ∈ writesOf (process_catalog_item env item).1 →
      f = idStr doc.meta_id ++ jsonExt) ∧
    (∀ s ind, serializeJVal (JVal.jstr s) ind = dquote :: escapeStr s ++ [dquote]) ∧
    (∀ s c, c ∈ s → needsEscape c = false → c ∈ escapeStr s) ∧
    (∀ doc s c, doc.output_sparql = some s → c ∈ s → needsEscape c = false →
      c ∈ saveBytes doc) ∧
    (∀ st k v g, lookupStore (upsert st k v) g = if g = k then some v else lookupStore st g) ∧
    (∀ st k v, (st.map Prod.fst).Nodup →
      ((upsert st k v).map Prod.fst).Nodup ∧
        ((upsert st k v).map Prod.fst).count k = 1) ∧
    (∀ fn d1 d2, applyEvents [] [Event.writeFile fn d1, Event.writeFile fn d2] =
      [(fn, saveBytes d2)]) := by
  refine ⟨process_writes_filename, fun s ind => rfl, mem_escapeStr, mem_saveBytes,
    lookupStore_upsert, upsert_count_nodup, ?_⟩
  intro fn d1 d2
  simp [applyEvents, upsert]


/-! ## C8: collapsing blank-line runs -/

/-- Helper: no run of four or more newlines occurs, `k` counting the
current run. -/
def noRun4Aux : Nat → List Char → Bool
  | _, [] => true
  | k, c :: rest =>
    if c = '\n' then decide (k + 1 < 4) && noRun4Aux (k + 1) rest
    else noRun4Aux 0 rest

/-- The string has no run of four or more consecutive newlines. -/
def noRun4 (s : List Char) : Bool := noRun4Aux 0 s

/-- On strings without a long newline run the collapse step is the
identity. -/
lemma collapseAux_fix (s : List Char) : ∀ n, n ≤ 3 → noRun4Aux n s = true →
    collapseAux n s = List.replicate n '\n' ++ s := by
  induction s with
  | nil =>
    intro n hn _
    have hlt : ¬ 4 ≤ n := by omega
    simp [collapseAux, emitNl, hlt]
  | cons c rest ih =>
    intro n hn h
    by_cases hc : c = '\n'
    · subst hc
      simp [noRun4Aux] at h
      simp only [collapseAux, if_true]
      rw [ih (n + 1) (by omega) h.2, List.replicate_succ' n '\n']
      simp
    · have hlt : ¬ 4 ≤ n := by omega
      simp only [noRun4Aux, if_neg hc] at h
      simp only [collapseAux, if_neg hc]
      rw [ih 0 (by omega) h]
      simp [emitNl, hlt]

lemma collapseNl_fix (s : List Char) (h : noRun4 s = true) : collapseNl s = s := by
  have := collapseAux_fix s 0 (by omega) h
  simpa [collapseNl] using this


/-- One step of the collapse scan on a non-newline character. -/
lemma collapseAux_cons_ne (n : Nat) (c : Char) (rest : List Char) (hc : ¬ c = '\n') :
    collapseAux n (c :: rest) = emitNl n ++ c :: collapseAux 0 rest := by
  simp [collapseAux, hc]

/-- One step of the collapse scan on a newline. -/
lemma collapseAux_cons_nl (n : Nat) (rest : List Char) :
    collapseAux n ('\n' :: rest) = collapseAux (n + 1) rest := by
  simp [collapseAux]

lemma collapseAux_nil (n : Nat) : collapseAux n [] = emitNl n := rfl

/-- Scanning a newline run just accumulates its length. -/
lemma collapseAux_run (b : List Char) :
    ∀ k n, collapseAux n (List.replicate k '\n' ++ b) = collapseAux (n + k) b := by
  intro k
  induction k with
  | zero => intro n; simp
  | succ k ihk =>
    intro n
    rw [List.replicate_succ]
    show collapseAux n ('\n' :: (List.replicate k '\n' ++ b)) = _
    rw [collapseAux_cons_nl, ihk (n + 1)]
    congr 1
    omega

/-- A block not ending in a newline collapses independently of what
follows. -/
lemma collapseAux_split : ∀ (a : List Char), ¬ a = [] → ¬ a.getLast? = some '\n' →
    ∀ n u, collapseAux n (a ++ u) = collapseAux n a ++ collapseAux 0 u := by
  intro a
  induction a with
  | nil => intro ha _; exact absurd rfl ha
  | cons c a' ih =>
    intro _ hl n u
    cases a' with
    | nil =>
      have hc : ¬ c = '\n' := by
        intro hcc
        exact hl (by simp [hcc])
      show collapseAux n (c :: u) = _
      rw [collapseAux_cons_ne n c u hc, collapseAux_cons_ne n c [] hc, collapseAux_nil]
      simp [emitNl]
    | cons d a'' =>
      have hl' : ¬ (d :: a'').getLast? = some '\n' := by
        rwa [List.getLast?_cons_cons] at hl
      have hne : ¬ (d :: a'') = [] := by simp
      by_cases hc : c = '\n'
      · subst hc
        show collapseAux n ('\n' :: ((d :: a'') ++ u)) = _
        rw [collapseAux_cons_nl n ((d :: a'') ++ u), collapseAux_cons_nl n (d :: a'')]
        exact ih hne hl' (n + 1) u
      · show collapseAux n (c :: ((d :: a'') ++ u)) = _
        rw [collapseAux_cons_ne n c ((d :: a'') ++ u) hc, collapseAux_cons_ne n c (d :: a'') hc,
          ih hne hl' 0 u]
        simp

/-- The collapse step on a maximal long newline run: it becomes exactly
three newlines. -/
lemma collapseNl_long_run (a b : List Char) (k : Nat) (hk : 4 ≤ k)
    (ha : ¬ a.getLast? = some '\n') (hb : ¬ b.head? = some '\n') :
    collapseNl (a ++ List.replicate k '\n' ++ b) =
      collapseNl a ++ ['\n', '\n', '\n'] ++ collapseNl b := by
  have hmid : ∀ n, 4 ≤ n + k → collapseAux n (List.replicate k '\n' ++ b) =
      ['\n', '\n', '\n'] ++ collapseNl b := by
    intro n hn
    rw [collapseAux_run]
    cases b with
    | nil =>
      rw [collapseAux_nil]
      simp [emitNl, hn, collapseNl, collapseAux_nil]
    | cons d b' =>
      have hd : ¬ d = '\n' := by
        intro hdd
        exact hb (by simp [hdd])
      rw [collapseAux_cons_ne (n + k) d b' hd]
      show _ = _ ++ collapseAux 0 (d :: b')
      rw [collapseAux_cons_ne 0 d b' hd]
      simp [emitNl, hn]
  cases ha2 : a with
  | nil =>
    show collapseAux 0 ([] ++ List.replicate k '\n' ++ b) = _
    rw [List.nil_append, hmid 0 (by omega)]
    simp [collapseNl, collapseAux_nil, emitNl]
  | cons c a' =>
    rw [← ha2]
    have hne : ¬ a = [] := by rw [ha2]; simp
    show collapseAux 0 (a ++ List.replicate k '\n' ++ b) = _
    rw [List.append_assoc, collapseAux_split a hne ha 0 (List.replicate k '\n' ++ b),
      hmid 0 (by omega)]
    simp [collapseNl]


/-- C8 counterexample: `a` followed by three blank lines (four newline
characters) and `b` — fewer than four blank lines, which the claim says
this step leaves unchanged — is nevertheless collapsed by
`re.sub(r"\n{4,}", "\n\n\n", _)`, because the regex fires at four newline
characters (three blank lines), not at four blank lines. -/
theorem claimC8_counterexample :
    collapseNl (("a\n\n\n\nb").toList) = ("a\n\n\nb").toList ∧
    ¬ collapseNl (("a\n\n\n\nb").toList) = ("a\n\n\n\nb").toList := by
  constructor
  · decide
  · decide

/-- C8 (amended): the collapse step rewrites each maximal run of four or
more newline characters (three or more blank lines) to exactly three
newlines (two blank lines), and leaves strings whose newline runs are all
of length at most three unchanged. -/
theorem claimC8_collapse_newline_runs :
    (∀ s, noRun4 s = true → collapseNl s = s) ∧
    (∀ a b k, 4 ≤ k → ¬ a.getLast? = some '\n' → ¬ b.head? = some '\n' →
      collapseNl (a ++ List.replicate k '\n' ++ b) =
        collapseNl a ++ ['\n', '\n', '\n'] ++ collapseNl b) ∧
    collapseNl (("a\n\n\nb").toList) = ("a\n\n\nb").toList ∧
    collapseNl (("a\n\n\n\n\n\nb").toList) = ("a\n\n\nb").toList := by
  exact ⟨collapseNl_fix, fun a b k hk ha hb => collapseNl_long_run a b k hk ha hb,
    by decide, by decide⟩


/-! ## C3: the normalizer and idempotence -/

lemma dropWhile_head_false (p : Char → Bool) (l : List Char) (c : Char)
    (h : (l.dropWhile p).head? = some c) : p c = false := by
  induction l with
  | nil => simp [List.dropWhile] at h
  | cons d rest ih =>
    by_cases hd : p d
    · rw [List.dropWhile_cons_of_pos hd] at h
      exact ih h
    · rw [List.dropWhile_cons_of_neg hd] at h
      injection h with h
      subst h
      simpa using hd

lemma dropWhile_eq_self_of_head (p : Char → Bool) (l : List Char)
    (h : ∀ c, l.head? = some c → p c = false) : l.dropWhile p = l := by
  cases l with
  | nil => rfl
  | cons c rest =>
    rw [List.dropWhile_cons_of_neg]
    simp [h c rfl]

lemma rstripWs_head (s : List Char) :
    rstripWs s = [] ∨ (rstripWs s).head? = s.head? := by
  cases s with
  | nil => exact Or.inl rfl
  | cons c rest =>
    simp only [rstripWs]
    split
    · exact Or.inl rfl
    · exact Or.inr rfl

lemma rstripWs_idem (s : List Char) : rstripWs (rstripWs s) = rstripWs s := by
  induction s with
  | nil => rfl
  | cons c rest ih =>
    simp only [rstripWs]
    split
    · rfl
    · next hcond =>
      simp only [rstripWs, ih]
      split
      · next hcond2 => exact absurd hcond2 hcond
      · rfl

lemma stripWs_idem (s : List Char) : stripWs (stripWs s) = stripWs s := by
  simp only [stripWs, lstripWs]
  have hhead : ∀ c, (rstripWs (List.dropWhile isPySpace s)).head? = some c →
      isPySpace c = false := by
    intro c hc
    rcases rstripWs_head (List.dropWhile isPySpace s) with h | h
    · rw [h] at hc
      exact Option.noConfusion hc
    · rw [h] at hc
      exact dropWhile_head_false isPySpace s c hc
  rw [dropWhile_eq_self_of_head isPySpace _ hhead, rstripWs_idem]

lemma lstripBom_eq_self (s : List Char) (h : ¬ s.head? = some '\uFEFF') :
    lstripBom s = s := by
  refine dropWhile_eq_self_of_head _ s ?_
  intro c hc
  rw [hc] at h
  simp only [decide_eq_false_iff_not]
  intro hcc
  exact h (by rw [hcc])

lemma convertEscapes_eq_self (s : List Char)
    (h1 : containsSeq2 '\\' 'n' s = false) (h2 : containsSeq2 '\\' 't' s = false) :
    convertEscapes s = s := by
  simp [convertEscapes, h1, h2]

lemma replaceSeq_not_mem (p0 : Char) (ptail rep : List Char) (s : List Char)
    (h : p0 ∉ s) : replaceSeq p0 ptail rep s = s := by
  simp only [replaceSeq]
  induction s with
  | nil => rfl
  | cons c rest ih =>
    have hc : ¬ c = p0 := by
      intro hcc
      exact h (hcc ▸ List.mem_cons_self c rest)
    simp only [replaceAux, hc, false_and, if_false]
    rw [ih (fun hm => h (List.mem_cons_of_mem c hm))]

lemma mapChar_not_mem (a b : Char) (s : List Char) (h : a ∉ s) :
    mapChar a b s = s := by
  simp only [mapChar]
  rw [List.map_congr_left, List.map_id]
  intro c hc
  have : ¬ c = a := fun hcc => h (hcc ▸ hc)
  simp [this]

lemma removeChar_not_mem (a : Char) (s : List Char) (h : a ∉ s) :
    removeChar a s = s := by
  simp only [removeChar]
  rw [List.filter_eq_self.mpr]
  intro c hc
  have : ¬ c = a := fun hcc => h (hcc ▸ hc)
  simp [this]

lemma normalizeInvisibles_eq_self (s : List Char)
    (hr : ('\r') ∉ s) (hnb : (' ') ∉ s) (hzs : ('​') ∉ s)
    (hzn : ('\u200C') ∉ s) (hzj : ('\u200D') ∉ s) :
    normalizeInvisibles s = s := by
  simp only [normalizeInvisibles]
  rw [replaceSeq_not_mem _ _ _ _ hr, mapChar_not_mem _ _ _ hr, mapChar_not_mem _ _ _ hnb,
    removeChar_not_mem _ _ hzs, removeChar_not_mem _ _ hzn, removeChar_not_mem _ _ hzj]


lemma mem_rstripWs (s : List Char) (c : Char) (h : c ∈ rstripWs s) : c ∈ s := by
  induction s with
  | nil => simpa [rstripWs] using h
  | cons d rest ih =>
    simp only [rstripWs] at h
    split at h
    · exact absurd h (List.not_mem_nil c)
    · rcases List.mem_cons.mp h with rfl | h
      · exact List.mem_cons_self _ _
      · exact List.mem_cons_of_mem d (ih h)

lemma mem_stripWs (s : List Char) (c : Char) (h : c ∈ stripWs s) : c ∈ s := by
  have h1 := mem_rstripWs _ c h
  exact List.Sublist.mem h1 (List.dropWhile_sublist isPySpace)

lemma mem_emitNl (n : Nat) (c : Char) (h : c ∈ emitNl n) : c = '\n' := by
  simp only [emitNl] at h
  exact List.eq_of_mem_replicate h

lemma mem_collapseAux (s : List Char) : ∀ n c, c ∈ collapseAux n s → c = '\n' ∨ c ∈ s := by
  induction s with
  | nil =>
    intro n c h
    exact Or.inl (mem_emitNl n c h)
  | cons d rest ih =>
    intro n c h
    by_cases hd : d = '\n'
    · subst hd
      rw [collapseAux_cons_nl] at h
      rcases ih (n + 1) c h with h | h
      · exact Or.inl h
      · exact Or.inr (List.mem_cons_of_mem _ h)
    · rw [collapseAux_cons_ne n d rest hd] at h
      rcases List.mem_append.mp h with h | h
      · exact Or.inl (mem_emitNl n c h)
      · rcases List.mem_cons.mp h with rfl | h
        · exact Or.inr (List.mem_cons_self _ _)
        · rcases ih 0 c h with h | h
          · exact Or.inl h
          · exact Or.inr (List.mem_cons_of_mem _ h)

lemma mem_joinNl (ls : List (List Char)) (c : Char) (h : c ∈ joinNl ls) :
    c = '\n' ∨ ∃ l ∈ ls, c ∈ l := by
  induction ls with
  | nil => simpa [joinNl] using h
  | cons l ls' ih =>
    cases ls' with
    | nil =>
      simp only [joinNl] at h
      exact Or.inr ⟨l, List.mem_singleton.mpr rfl, h⟩
    | cons l2 ls2 =>
      simp only [joinNl] at h
      rcases List.mem_append.mp h with h | h
      · exact Or.inr ⟨l, List.mem_cons_self _ _, h⟩
      · rcases List.mem_cons.mp h with rfl | h
        · exact Or.inl rfl
        · rcases ih h with h | ⟨l', hl', hc⟩
          · exact Or.inl h
          · exact Or.inr ⟨l', List.mem_cons_of_mem _ hl', hc⟩

lemma mem_splitNl (s : List Char) : ∀ l ∈ splitNl s, ∀ c ∈ l, c ∈ s := by
  induction s with
  | nil =>
    intro l hl c hc
    simp only [splitNl, List.mem_singleton] at hl
    subst hl
    exact absurd hc (List.not_mem_nil c)
  | cons d rest ih =>
    intro l hl c hc
    by_cases hd : d = '\n'
    · subst hd
      simp only [splitNl, if_pos rfl] at hl
      rcases List.mem_cons.mp hl with rfl | hl
      · exact absurd hc (List.not_mem_nil c)
      · exact List.mem_cons_of_mem _ (ih l hl c hc)
    · simp only [splitNl, if_neg hd] at hl
      cases hs : splitNl rest with
      | nil =>
        rw [hs] at hl
        simp at hl
        subst hl
        rcases List.mem_singleton.mp hc with rfl
        exact List.mem_cons_self _ _
      | cons h0 t =>
        rw [hs] at hl
        rcases List.mem_cons.mp hl with rfl | hl
        · rcases List.mem_cons.mp hc with rfl | hc
          · exact List.mem_cons_self _ _
          · exact List.mem_cons_of_mem _ (ih h0 (hs ▸ List.mem_cons_self _ _) c hc)
        · exact List.mem_cons_of_mem _ (ih l (hs ▸ List.mem_cons_of_mem _ hl) c hc)

lemma mem_processLines (ls : List (List Char)) (l : List Char)
    (h : l ∈ processLines ls) : ∃ l0 ∈ ls, l = rstripWs l0 := by
  simp only [processLines] at h
  have h1 := List.mem_of_mem_filter h
  rcases List.mem_map.mp h1 with ⟨l0, hl0, rfl⟩
  exact ⟨l0, hl0, rfl⟩

lemma mem_mapChar (a b : Char) (s : List Char) (c : Char) (h : c ∈ mapChar a b s) :
    c = b ∨ c ∈ s := by
  simp only [mapChar, List.mem_map] at h
  rcases h with ⟨x, hx, hxc⟩
  by_cases hxa : x = a
  · rw [hxa] at hxc
    simp at hxc
    exact Or.inl hxc.symm
  · simp [hxa] at hxc
    exact Or.inr (hxc ▸ hx)

lemma mapChar_no_src (a b : Char) (s : List Char) (hab : ¬ b = a) :
    a ∉ mapChar a b s := by
  intro h
  simp only [mapChar, List.mem_map] at h
  rcases h with ⟨x, _, hxc⟩
  by_cases hxa : x = a
  · rw [hxa] at hxc
    simp at hxc
    exact hab hxc
  · simp [hxa] at hxc

lemma mem_removeChar (a : Char) (s : List Char) (c : Char) (h : c ∈ removeChar a s) :
    c ∈ s := List.mem_of_mem_filter h

lemma removeChar_no_src (a : Char) (s : List Char) : a ∉ removeChar a s := by
  intro h
  have := List.of_mem_filter h
  simp at this


/-- The structure of a successful cleaning. -/
lemma clean_some_struct (x y : List Char) (h : clean_sparql_query x = some y) :
    y = stripWs (collapseNl (joinNl (processLines (splitNl
      (normalizeInvisibles (convertEscapes (unwrapQuotes (lstripBom (stripWs x))))))))) ∧
    ¬ y = [] := by
  simp only [clean_sparql_query] at h
  split at h
  · exact Option.noConfusion h
  · next hcond =>
    injection h with h
    exact ⟨h.symm, h ▸ hcond⟩

/-- A non-newline character that the middle of the pipeline has removed
cannot reappear in the cleaned result. -/
lemma clean_char_absent (x y : List Char) (h : clean_sparql_query x = some y)
    (c : Char) (hc : ¬ c = '\n')
    (habs : c ∉ normalizeInvisibles (convertEscapes (unwrapQuotes (lstripBom (stripWs x))))) :
    c ∉ y := by
  obtain ⟨hy, -⟩ := clean_some_struct x y h
  intro hmem
  rw [hy] at hmem
  have h1 := mem_stripWs _ _ hmem
  simp only [collapseNl] at h1
  rcases mem_collapseAux _ 0 c h1 with h2 | h2
  · exact hc h2
  rcases mem_joinNl _ c h2 with h3 | ⟨l, hl, hcl⟩
  · exact hc h3
  obtain ⟨l0, hl0, rfl⟩ := mem_processLines _ l hl
  exact habs (mem_splitNl _ l0 hl0 c (mem_rstripWs _ c hcl))

/-- The carriage return, no-break space and zero-width characters never
survive cleaning. -/
lemma clean_no_specials (x y : List Char) (h : clean_sparql_query x = some y) :
    ('\r') ∉ y ∧ ('\u00A0') ∉ y ∧ ('\u200B') ∉ y ∧ ('\u200C') ∉ y ∧ ('\u200D') ∉ y := by
  refine ⟨clean_char_absent x y h _ (by decide) ?_,
    clean_char_absent x y h _ (by decide) ?_,
    clean_char_absent x y h _ (by decide) ?_,
    clean_char_absent x y h _ (by decide) ?_,
    clean_char_absent x y h _ (by decide) ?_⟩ <;>
    simp only [normalizeInvisibles]
  · intro hmem
    have h1 := mem_removeChar _ _ _ hmem
    have h2 := mem_removeChar _ _ _ h1
    have h3 := mem_removeChar _ _ _ h2
    rcases mem_mapChar _ _ _ _ h3 with he | he
    · exact (by decide : ¬ ('\r' : Char) = ' ') he
    · exact mapChar_no_src '\r' '\n' _ (by decide) he
  · intro hmem
    have h1 := mem_removeChar _ _ _ hmem
    have h2 := mem_removeChar _ _ _ h1
    have h3 := mem_removeChar _ _ _ h2
    exact mapChar_no_src '\u00A0' ' ' _ (by decide) h3
  · intro hmem
    have h1 := mem_removeChar _ _ _ hmem
    have h2 := mem_removeChar _ _ _ h1
    exact removeChar_no_src _ _ h2
  · intro hmem
    have h1 := mem_removeChar _ _ _ hmem
    exact removeChar_no_src _ _ h1
  · intro hmem
    exact removeChar_no_src _ _ hmem


/-- `c` is a non-newline whitespace character standing immediately before a
newline or the end of the string — i.e. some line has trailing whitespace
here. -/
def badAt (c : Char) (rest : List Char) : Bool :=
  isPySpace c ∧ ¬ c = '\n' ∧ (rest.head?.getD '\n') = '\n'

/-- No line of the string (splitting on newlines) has trailing whitespace. -/
def trailOk : List Char → Bool
  | [] => true
  | c :: rest => ¬ badAt c rest ∧ trailOk rest

lemma trailOk_cons (c : Char) (rest : List Char) (h : trailOk (c :: rest) = true) :
    trailOk rest = true := by
  simp only [trailOk, Bool.and_eq_true, decide_eq_true_eq] at h
  exact h.2

lemma trailOk_cons_bad (c : Char) (rest : List Char) (h : trailOk (c :: rest) = true) :
    badAt c rest = false := by
  simp only [trailOk, Bool.and_eq_true, decide_eq_true_eq] at h
  simpa using h.1

lemma badAt_nl (rest : List Char) : badAt '\n' rest = false := by
  simp [badAt]

lemma trailOk_nl_cons (rest : List Char) : trailOk ('\n' :: rest) = trailOk rest := by
  simp [trailOk, badAt_nl, badAt]

lemma trailOk_dropWhile (p : Char → Bool) (s : List Char) (h : trailOk s = true) :
    trailOk (s.dropWhile p) = true := by
  induction s with
  | nil => simpa using h
  | cons c rest ih =>
    by_cases hc : p c
    · rw [List.dropWhile_cons_of_pos hc]
      exact ih (trailOk_cons c rest h)
    · rwa [List.dropWhile_cons_of_neg hc]

lemma rstripWs_nonempty_head (s : List Char) (h : ¬ rstripWs s = []) :
    (rstripWs s).head? = s.head? := by
  rcases rstripWs_head s with h1 | h1
  · exact absurd h1 h
  · exact h1

lemma trailOk_rstripWs (s : List Char) (h : trailOk s = true) :
    trailOk (rstripWs s) = true := by
  induction s with
  | nil => simpa using h
  | cons c rest ih =>
    simp only [rstripWs]
    split
    · rfl
    · next hcond =>
      have hrest := ih (trailOk_cons c rest h)
      simp only [trailOk, Bool.and_eq_true, decide_eq_true_eq]
      refine ⟨?_, by simpa using hrest⟩
      intro hbad
      simp only [badAt, Bool.and_eq_true, decide_eq_true_eq] at hbad
      obtain ⟨hsp, hnl, hhead⟩ := hbad
      have hbadc := trailOk_cons_bad c rest h
      simp only [badAt, Bool.and_eq_true, decide_eq_true_eq] at hbadc
      have hne : ¬ rstripWs rest = [] := by
        intro hemp
        exact hcond ⟨hemp, hsp⟩
      rw [rstripWs_nonempty_head rest hne] at hhead
      simp [hsp, hnl, hhead] at hbadc


lemma collapseAux_head_pos (s : List Char) : ∀ n, 1 ≤ n →
    (collapseAux n s).head? = some '\n' := by
  induction s with
  | nil =>
    intro n hn
    simp only [collapseAux_nil, emitNl]
    split
    · rfl
    · cases n with
      | zero => omega
      | succ m => simp [List.replicate_succ]
  | cons c rest ih =>
    intro n hn
    by_cases hc : c = '\n'
    · subst hc
      rw [collapseAux_cons_nl]
      exact ih (n + 1) (by omega)
    · rw [collapseAux_cons_ne n c rest hc]
      simp only [emitNl]
      split
      · rfl
      · cases n with
        | zero => omega
        | succ m => simp [List.replicate_succ]

lemma collapseNl_head (s : List Char) : (collapseNl s).head? = s.head? := by
  cases s with
  | nil => rfl
  | cons c rest =>
    by_cases hc : c = '\n'
    · subst hc
      show (collapseAux 0 ('\n' :: rest)).head? = _
      rw [collapseAux_cons_nl]
      rw [collapseAux_head_pos rest 1 (by omega)]
      rfl
    · show (collapseAux 0 (c :: rest)).head? = _
      rw [collapseAux_cons_ne 0 c rest hc]
      simp [emitNl]

lemma trailOk_replicate_nl (u : List Char) (m : Nat) :
    trailOk (List.replicate m '\n' ++ u) = trailOk u := by
  induction m with
  | zero => simp
  | succ m ih =>
    rw [List.replicate_succ]
    simp only [List.cons_append, trailOk_nl_cons]
    exact ih

lemma trailOk_collapseAux (s : List Char) : ∀ n, trailOk s = true →
    trailOk (collapseAux n s) = true := by
  induction s with
  | nil =>
    intro n _
    rw [collapseAux_nil]
    simp only [emitNl]
    have h2 := trailOk_replicate_nl [] (if 4 ≤ n then 3 else n)
    simpa using h2
  | cons c rest ih =>
    intro n h
    by_cases hc : c = '\n'
    · subst hc
      rw [collapseAux_cons_nl]
      exact ih (n + 1) (by rwa [trailOk_nl_cons] at h)
    · rw [collapseAux_cons_ne n c rest hc]
      have heq : emitNl n ++ c :: collapseAux 0 rest =
          List.replicate (if 4 ≤ n then 3 else n) '\n' ++ (c :: collapseAux 0 rest) := by
        simp [emitNl]
      rw [heq, trailOk_replicate_nl]
      simp only [trailOk, Bool.and_eq_true, decide_eq_true_eq]
      refine ⟨?_, by simpa using ih 0 (trailOk_cons c rest h)⟩
      intro hbad
      simp only [badAt, Bool.and_eq_true, decide_eq_true_eq] at hbad
      obtain ⟨hsp, hnl, hhead⟩ := hbad
      have hbadc := trailOk_cons_bad c rest h
      simp only [badAt, Bool.and_eq_true, decide_eq_true_eq] at hbadc
      have hco : (collapseAux 0 rest).head? = rest.head? := collapseNl_head rest
      rw [hco] at hhead
      simp [hsp, hnl, hhead] at hbadc


lemma splitNl_ne_nil (s : List Char) : ¬ splitNl s = [] := by
  cases s with
  | nil => simp [splitNl]
  | cons c rest =>
    simp only [splitNl]
    split
    · simp
    · split <;> simp

lemma splitNl_no_nl (s : List Char) : ∀ l ∈ splitNl s, ('\n') ∉ l := by
  induction s with
  | nil =>
    intro l hl
    simp only [splitNl, List.mem_singleton] at hl
    subst hl
    exact List.not_mem_nil _
  | cons c rest ih =>
    intro l hl
    by_cases hc : c = '\n'
    · subst hc
      simp only [splitNl, if_pos rfl] at hl
      rcases List.mem_cons.mp hl with rfl | hl
      · exact List.not_mem_nil _
      · exact ih l hl
    · simp only [splitNl, if_neg hc] at hl
      cases hs : splitNl rest with
      | nil => exact absurd hs (splitNl_ne_nil rest)
      | cons h0 t =>
        rw [hs] at hl
        rcases List.mem_cons.mp hl with rfl | hl
        · intro hmem
          rcases List.mem_cons.mp hmem with heq | hmem
          · exact hc heq.symm
          · exact ih h0 (hs ▸ List.mem_cons_self _ _) hmem
        · exact ih l (hs ▸ List.mem_cons_of_mem _ hl)

/-- The first line is empty only when the string is empty or starts with a
newline. -/
lemma splitNl_head_empty (s : List Char) (t : List (List Char))
    (h : splitNl s = [] :: t) : s = [] ∨ s.head? = some '\n' := by
  cases s with
  | nil => exact Or.inl rfl
  | cons c rest =>
    by_cases hc : c = '\n'
    · exact Or.inr (by subst hc; rfl)
    · simp only [splitNl, if_neg hc] at h
      cases hs : splitNl rest with
      | nil => exact absurd hs (splitNl_ne_nil rest)
      | cons h0 t0 =>
        rw [hs] at h
        injection h with h1 h2
        exact absurd h1 (List.cons_ne_nil c h0)

/-- Splitting and rejoining is the identity. -/
lemma joinNl_splitNl (s : List Char) : joinNl (splitNl s) = s := by
  induction s with
  | nil => rfl
  | cons c rest ih =>
    by_cases hc : c = '\n'
    · subst hc
      simp only [splitNl, if_pos rfl]
      cases hs : splitNl rest with
      | nil => exact absurd hs (splitNl_ne_nil rest)
      | cons h0 t =>
        show joinNl ([] :: h0 :: t) = _
        simp only [joinNl, List.nil_append]
        rw [← hs, ih]
    · simp only [splitNl, if_neg hc]
      cases hs : splitNl rest with
      | nil => exact absurd hs (splitNl_ne_nil rest)
      | cons h0 t =>
        cases t with
        | nil =>
          simp only [joinNl]
          rw [hs] at ih
          simp only [joinNl] at ih
          rw [ih]
        | cons t1 t2 =>
          simp only [joinNl, List.cons_append]
          rw [hs] at ih
          simp only [joinNl] at ih
          rw [ih]

/-- On a string with no trailing whitespace before newlines, every line is
already rstripped. -/
lemma trailOk_lines (s : List Char) (h : trailOk s = true) :
    ∀ l ∈ splitNl s, rstripWs l = l := by
  induction s with
  | nil =>
    intro l hl
    simp only [splitNl, List.mem_singleton] at hl
    subst hl
    rfl
  | cons c rest ih =>
    intro l hl
    by_cases hc : c = '\n'
    · subst hc
      simp only [splitNl, if_pos rfl] at hl
      rcases List.mem_cons.mp hl with rfl | hl
      · rfl
      · exact ih (by rwa [trailOk_nl_cons] at h) l hl
    · simp only [splitNl, if_neg hc] at hl
      have hrest := trailOk_cons c rest h
      cases hs : splitNl rest with
      | nil => exact absurd hs (splitNl_ne_nil rest)
      | cons h0 t =>
        rw [hs] at hl
        rcases List.mem_cons.mp hl with rfl | hl
        · have hh0 : rstripWs h0 = h0 := ih hrest h0 (hs ▸ List.mem_cons_self _ _)
          simp only [rstripWs, hh0]
          split
          · next hcond =>
            obtain ⟨hemp, hsp⟩ := hcond
            have hbadc := trailOk_cons_bad c rest h
            simp only [badAt, Bool.and_eq_true, decide_eq_true_eq] at hbadc
            rcases splitNl_head_empty rest t (hemp ▸ hs) with hre | hre
            · subst hre
              simp [hsp, hc] at hbadc
            · simp [hsp, hc, hre] at hbadc
          · rfl
        · exact ih hrest l (hs ▸ List.mem_cons_of_mem _ hl)


lemma rstripWs_cons_fix (c : Char) (rest : List Char)
    (h : rstripWs (c :: rest) = c :: rest) :
    rstripWs rest = rest ∧ ¬ (rstripWs rest = [] ∧ isPySpace c = true) := by
  simp only [rstripWs] at h
  split at h
  · exact absurd h (List.cons_ne_nil c rest).symm
  · next hcond =>
    injection h with h1 h2
    constructor
    · exact h2
    · intro hcc
      exact hcond ⟨hcc.1, by simpa using hcc.2⟩

lemma trailOk_line_append (l u : List Char) (hfix : rstripWs l = l)
    (hnl : ('\n') ∉ l) (hu : trailOk u = true) : trailOk (l ++ u) = true := by
  induction l with
  | nil => simpa using hu
  | cons c rest ih =>
    obtain ⟨hrfix, hcond⟩ := rstripWs_cons_fix c rest hfix
    have hrest : trailOk (rest ++ u) = true :=
      ih hrfix (fun hm => hnl (List.mem_cons_of_mem c hm))
    simp only [List.cons_append, trailOk, Bool.and_eq_true, decide_eq_true_eq]
    refine ⟨?_, by simpa using hrest⟩
    intro hbad
    simp only [badAt, Bool.and_eq_true, decide_eq_true_eq] at hbad
    obtain ⟨hsp, hnlc, hhead⟩ := hbad
    cases hre : rest with
    | nil =>
      subst hre
      exact hcond ⟨rfl, hsp⟩
    | cons d rest' =>
      subst hre
      have hd : d = '\n' := by simpa using hhead
      exact hnl (List.mem_cons_of_mem c (hd ▸ List.mem_cons_self d rest'))

lemma trailOk_joinNl (ls : List (List Char))
    (h : ∀ l ∈ ls, rstripWs l = l ∧ ('\n') ∉ l) : trailOk (joinNl ls) = true := by
  induction ls with
  | nil => rfl
  | cons l ls' ih =>
    cases ls' with
    | nil =>
      have hl := h l (List.mem_singleton.mpr rfl)
      have h2 : trailOk (l ++ []) = true := trailOk_line_append l [] hl.1 hl.2 rfl
      simpa [joinNl] using h2
    | cons l2 ls2 =>
      show trailOk (l ++ '\n' :: joinNl (l2 :: ls2)) = true
      have hl := h l (List.mem_cons_self _ _)
      refine trailOk_line_append l _ hl.1 hl.2 ?_
      rw [trailOk_nl_cons]
      exact ih (fun l' hl' => h l' (List.mem_cons_of_mem _ hl'))

lemma processLines_props (ls : List (List Char)) (hnl : ∀ l ∈ ls, ('\n') ∉ l) :
    ∀ l ∈ processLines ls, rstripWs l = l ∧ ('\n') ∉ l := by
  intro l hl
  obtain ⟨l0, hl0, rfl⟩ := mem_processLines ls l hl
  exact ⟨rstripWs_idem l0, fun hm => hnl l0 hl0 (mem_rstripWs l0 '\n' hm)⟩

/-- Every cleaned result has no trailing whitespace on any of its lines. -/
lemma clean_trailOk (x y : List Char) (h : clean_sparql_query x = some y) :
    trailOk y = true := by
  obtain ⟨hy, -⟩ := clean_some_struct x y h
  rw [hy]
  have h5 : trailOk (joinNl (processLines (splitNl
      (normalizeInvisibles (convertEscapes (unwrapQuotes (lstripBom (stripWs x)))))))) = true :=
    trailOk_joinNl _ (processLines_props _ (splitNl_no_nl _))
  have h6 := trailOk_collapseAux _ 0 h5
  simp only [stripWs, lstripWs]
  exact trailOk_rstripWs _ (trailOk_dropWhile _ _ h6)


lemma noRun4Aux_cons_nl (k : Nat) (rest : List Char) :
    noRun4Aux k ('\n' :: rest) = (decide (k + 1 < 4) && noRun4Aux (k + 1) rest) := by
  simp [noRun4Aux]

lemma noRun4Aux_cons_ne (k : Nat) (c : Char) (rest : List Char) (hc : ¬ c = '\n') :
    noRun4Aux k (c :: rest) = noRun4Aux 0 rest := by
  simp [noRun4Aux, hc]

lemma noRun4Aux_mono (s : List Char) : ∀ k k', k' ≤ k → noRun4Aux k s = true →
    noRun4Aux k' s = true := by
  induction s with
  | nil => intro k k' _ _; rfl
  | cons c rest ih =>
    intro k k' hk h
    by_cases hc : c = '\n'
    · subst hc
      rw [noRun4Aux_cons_nl] at h ⊢
      simp only [Bool.and_eq_true, decide_eq_true_eq] at h ⊢
      exact ⟨by omega, ih (k + 1) (k' + 1) (by omega) h.2⟩
    · rw [noRun4Aux_cons_ne _ _ _ hc] at h ⊢
      exact h

lemma noRun4_tail (c : Char) (rest : List Char) (h : noRun4Aux 0 (c :: rest) = true) :
    noRun4Aux 0 rest = true := by
  by_cases hc : c = '\n'
  · subst hc
    rw [noRun4Aux_cons_nl] at h
    simp only [Bool.and_eq_true, decide_eq_true_eq] at h
    exact noRun4Aux_mono rest 1 0 (by omega) h.2
  · rwa [noRun4Aux_cons_ne _ _ _ hc] at h

lemma noRun4_dropWhile (p : Char → Bool) (s : List Char)
    (h : noRun4Aux 0 s = true) : noRun4Aux 0 (s.dropWhile p) = true := by
  induction s with
  | nil => simpa using h
  | cons c rest ih =>
    by_cases hc : p c
    · rw [List.dropWhile_cons_of_pos hc]
      exact ih (noRun4_tail c rest h)
    · rwa [List.dropWhile_cons_of_neg hc]

lemma noRun4Aux_append_left (b : List Char) : ∀ (a : List Char) k,
    noRun4Aux k (a ++ b) = true → noRun4Aux k a = true := by
  intro a
  induction a with
  | nil => intro k _; rfl
  | cons c a' ih =>
    intro k h
    by_cases hc : c = '\n'
    · subst hc
      rw [List.cons_append, noRun4Aux_cons_nl] at h
      rw [noRun4Aux_cons_nl]
      simp only [Bool.and_eq_true, decide_eq_true_eq] at h ⊢
      exact ⟨h.1, ih _ h.2⟩
    · rw [List.cons_append, noRun4Aux_cons_ne _ _ _ hc] at h
      rw [noRun4Aux_cons_ne _ _ _ hc]
      exact ih _ h

lemma rstripWs_append_eq (s : List Char) : ∃ t, rstripWs s ++ t = s := by
  induction s with
  | nil => exact ⟨[], rfl⟩
  | cons c rest ih =>
    obtain ⟨t, ht⟩ := ih
    simp only [rstripWs]
    split
    · exact ⟨c :: rest, rfl⟩
    · exact ⟨t, by rw [List.cons_append, ht]⟩

lemma noRun4Aux_replicate (u : List Char) : ∀ m k, k + m ≤ 3 →
    noRun4Aux k (List.replicate m '\n' ++ u) = noRun4Aux (k + m) u := by
  intro m
  induction m with
  | zero => intro k _; simp
  | succ m ih =>
    intro k hk
    rw [List.replicate_succ, List.cons_append, noRun4Aux_cons_nl]
    have h4 : decide (k + 1 < 4) = true := by simp; omega
    rw [h4, Bool.true_and, ih (k + 1) (by omega)]
    congr 1
    omega

lemma collapse_noRun4 (s : List Char) : ∀ n, noRun4Aux 0 (collapseAux n s) = true := by
  induction s with
  | nil =>
    intro n
    rw [collapseAux_nil]
    have hle : (if 4 ≤ n then 3 else n) ≤ 3 := by
      split <;> omega
    have h2 := noRun4Aux_replicate [] (if 4 ≤ n then 3 else n) 0 (by omega)
    simp only [emitNl]
    rw [← List.append_nil (List.replicate (if 4 ≤ n then 3 else n) '\n'), h2]
    rfl
  | cons c rest ih =>
    intro n
    by_cases hc : c = '\n'
    · subst hc
      rw [collapseAux_cons_nl]
      exact ih (n + 1)
    · rw [collapseAux_cons_ne n c rest hc]
      have hle : (if 4 ≤ n then 3 else n) ≤ 3 := by
        split <;> omega
      simp only [emitNl]
      rw [noRun4Aux_replicate (c :: collapseAux 0 rest) (if 4 ≤ n then 3 else n) 0 (by omega)]
      rw [noRun4Aux_cons_ne _ _ _ hc]
      exact ih 0

lemma noRun4_strip (s : List Char) (h : noRun4Aux 0 s = true) :
    noRun4 (stripWs s) = true := by
  simp only [noRun4, stripWs]
  have h2 : noRun4Aux 0 (lstripWs s) = true := noRun4_dropWhile _ _ h
  obtain ⟨t, ht⟩ := rstripWs_append_eq (lstripWs s)
  exact noRun4Aux_append_left t _ 0 (by rwa [ht])

/-- The cleaned result has no run of four or more newlines. -/
lemma clean_noRun4 (x y : List Char) (h : clean_sparql_query x = some y) :
    noRun4 y = true := by
  obtain ⟨hy, -⟩ := clean_some_struct x y h
  rw [hy]
  exact noRun4_strip _ (collapse_noRun4 _ 0)


/-- On a cleaned string whose lines are rstripped and none of which is a
dash-marker line, the per-line pass is the identity. -/
lemma processLines_fix (y : List Char) (htr : trailOk y = true)
    (hdash : ∀ l ∈ splitNl y, keepLine l = true) :
    joinNl (processLines (splitNl y)) = y := by
  have hfix : (splitNl y).map rstripWs = (splitNl y).map id :=
    List.map_congr_left (fun l hl => trailOk_lines y htr l hl)
  unfold processLines
  rw [hfix, List.map_id, List.filter_eq_self.mpr hdash, joinNl_splitNl]

lemma clean_stripWs_fix (x y : List Char) (h : clean_sparql_query x = some y) :
    stripWs y = y := by
  obtain ⟨hy, -⟩ := clean_some_struct x y h
  rw [hy, stripWs_idem]

/-- Cleaning a cleaned result is the identity provided the re-run's
quote-unwrap, BOM strip, escape conversion and dash-line drop do not fire
on it. -/
lemma clean_idempotent_cond (x y : List Char) (h : clean_sparql_query x = some y)
    (hunwrap : unwrapQuotes y = y)
    (hbom : ¬ y.head? = some '\uFEFF')
    (hn : containsSeq2 '\\' 'n' y = false)
    (ht : containsSeq2 '\\' 't' y = false)
    (hdash : ∀ l ∈ splitNl y, keepLine l = true) :
    clean_sparql_query y = some y := by
  have hstrip := clean_stripWs_fix x y h
  have htr := clean_trailOk x y h
  obtain ⟨hr, hnb, hzs, hzn, hzj⟩ := clean_no_specials x y h
  have hnr := clean_noRun4 x y h
  obtain ⟨-, hne⟩ := clean_some_struct x y h
  simp only [clean_sparql_query]
  rw [hstrip, lstripBom_eq_self y hbom, hunwrap, convertEscapes_eq_self y hn ht,
    normalizeInvisibles_eq_self y hr hnb hzs hzn hzj,
    processLines_fix y htr hdash, collapseNl_fix y hnr, hstrip]
  simp [hne]

/-- C3 counterexample: a value wrapped in two layers of double quotes.
One cleaning unwraps a single quote layer, so the result is still
quote-wrapped and a second cleaning unwraps it again: the normalizer is not
idempotent as claimed. -/
theorem claimC3_counterexample :
    clean_sparql_query (("\"\"x\"\"").toList) = some (("\"x\"").toList) ∧
    cleanOpt (clean_sparql_query (("\"\"x\"\"").toList)) = some (("x").toList) ∧
    ¬ cleanOpt (clean_sparql_query (("\"\"x\"\"").toList)) =
        clean_sparql_query (("\"\"x\"\"").toList) := by
  exact ⟨by decide, by decide, by decide⟩

/-- C3 (amended): absence re-normalizes to absence, and the normalizer is
idempotent on every input whose cleaned result is stable under the
re-entrant steps: not wrapped in a matching quote pair with non-blank
inside, no leading byte-order mark, no literal backslash-n or backslash-t
escape sequences, and no line shaped like a dash/caret marker. The
remaining steps (whitespace stripping, line-ending and invisible-character
normalization, per-line rstrip, blank-run collapsing) are proved to fix
every cleaned result, so only those four conditions can break idempotence. -/
theorem claimC3_normalize_idempotence :
    cleanOpt none = none ∧
    (∀ x y, clean_sparql_query x = some y →
      unwrapQuotes y = y →
      ¬ y.head? = some '\uFEFF' →
      containsSeq2 '\\' 'n' y = false →
      containsSeq2 '\\' 't' y = false →
      (∀ l ∈ splitNl y, keepLine l = true) →
      clean_sparql_query y = some y) ∧
    cleanOpt (clean_sparql_query (("  SELECT ?x\nWHERE \x7b ?x ?p ?o \x7d  ").toList)) =
      clean_sparql_query (("  SELECT ?x\nWHERE \x7b ?x ?p ?o \x7d  ").toList) := by
  exact ⟨rfl, clean_idempotent_cond, by decide⟩


end Kadaster
